import Mathlib

/-!
Verification development for the dependency resolver (`sort_apps_by_dependencies`
in `claude_agent.py`) and the TypeScript schema compiler
(`typescript_generator.py`).

Python dictionaries are embedded as association lists with insertion-order
preserving upsert (a later assignment to an existing key overwrites the value
in place; a new key is appended).  Python sets of strings are embedded as
duplicate-free lists in insertion order (only membership and size are ever
used by the source).  Python machine strings are embedded as Lean `String`;
`str.upper`, `str.lower` and `str.capitalize` are embedded character-wise
with `Char.toUpper` / `Char.toLower`, which agree with Python on the ASCII
range (the only range the generated identifiers exercise).
-/

/-- Association-list lookup: Python `dict[k]` / `dict.get(k)`.  With the
upsert discipline below every key occurs at most once, so the first match is
the stored value. -/
def lookupL {α : Type} (m : List (String × α)) (k : String) : Option α :=
  match m with
  | [] => none
  | (k', v) :: rest => if k' = k then some v else lookupL rest k

/-- Python `dict[k] = v`: overwrite in place if the key exists, else append
(insertion order is preserved, first insertion wins for position). -/
def upsert {α : Type} (k : String) (v : α) : List (String × α) → List (String × α)
  | [] => [(k, v)]
  | (k', v') :: rest => if k' = k then (k', v) :: rest else (k', v') :: upsert k v rest

/-- Boolean list-prefix test (helper for the substring test below). -/
def prefixOfB : List Char → List Char → Bool
  | [], _ => true
  | _ :: _, [] => false
  | p :: ps, c :: cs => p == c && prefixOfB ps cs

/-- Helper for `pyIn`: does `pat` occur as a contiguous subsequence? -/
def containsSeqB (pat : List Char) : List Char → Bool
  | [] => pat.isEmpty
  | c :: cs => prefixOfB pat (c :: cs) || containsSeqB pat cs

/-- Python's `pat in s` substring test on strings. -/
def pyIn (pat s : String) : Bool := containsSeqB pat.data s.data

/-- Python set insertion on an insertion-ordered duplicate-free list. -/
def addSet (l : List String) (x : String) : List String :=
  if x ∈ l then l else l ++ [x]

/-! ## Resolver data model (`claude_agent.py`, `sort_apps_by_dependencies`) -/

/-- One control dict as read by the resolver: it only accesses
`ctrl.get("fulltype", "")` and `ctrl.get("lookup_app_ref")`. -/
structure RCtrl where
  fulltype : Option String
  lookup_app_ref : Option String
deriving DecidableEq

/-- One app definition as read by the resolver: `app["identifier"]` and the
values of `app.get("controls", {})`. -/
structure RApp where
  identifier : String
  controls : List RCtrl
deriving DecidableEq

/-- The dependency set collected for one app: for each control whose
`fulltype` contains `"applookup"`, a truthy (non-`None`, non-empty)
`lookup_app_ref` is added to the set. -/
def refsOf (app : RApp) : List String :=
  app.controls.foldl
    (fun deps c =>
      if pyIn "applookup" (c.fulltype.getD "") then
        match c.lookup_app_ref with
        | some r => if r = "" then deps else addSet deps r
        | none => deps
      else deps)
    []

/-- `app_map = {}` build loop: `app_map[identifier] = app`. -/
def buildAppMap (apps : List RApp) : List (String × RApp) :=
  apps.foldl (fun m a => upsert a.identifier a m) []

/-- `dependencies = {}` build loop: `dependencies[identifier] = set()` then
the `applookup` refs of that app are added. -/
def buildDeps (apps : List RApp) : List (String × List String) :=
  apps.foldl (fun m a => upsert a.identifier (refsOf a) m) []

/-- One entry of the in-degree table: the node id, its (immutable) dependency
set and its current in-degree (`in_degree[app_id]`, a Python int). -/
structure Entry where
  id : String
  deps : List String
  deg : Int
deriving DecidableEq

/-- The decrement pass of one Kahn iteration:
`for app_id, deps in dependencies.items(): if current in deps: in_degree[app_id] -= 1`. -/
def decEntries (cur : String) (entries : List Entry) : List Entry :=
  entries.map (fun e => if cur ∈ e.deps then ⟨e.id, e.deps, e.deg - 1⟩ else e)

/-- The ids appended to the queue during one decrement pass, in table order:
those whose in-degree just became exactly `0`. -/
def newZeros (cur : String) (entries : List Entry) : List String :=
  (entries.filter (fun e => decide (cur ∈ e.deps) && (e.deg - 1 == 0))).map (·.id)

/-- Number of entries with strictly positive in-degree; together with the
queue length this bounds the remaining loop iterations. -/
def posCount (entries : List Entry) : Nat :=
  entries.countP (fun e => decide (0 < e.deg))

/-- The `while queue:` loop of Kahn's algorithm.  `fuel` is an upper bound on
the number of remaining iterations; `kahnLoopF_measure` below shows one
iteration strictly decreases `posCount entries + queue.length`, so the fuel
passed by `sort_apps_by_dependencies` is never exhausted and the zero-fuel
truncation branch is unreachable. -/
def kahnLoopF (appMap : List (String × RApp)) :
    Nat → List String → List Entry → List RApp → List RApp
  | _, [], _, sorted => sorted
  | 0, _ :: _, _, sorted => sorted
  | fuel + 1, current :: rest, entries, sorted =>
    let sorted' := match lookupL appMap current with
      | some app => sorted ++ [app]
      | none => sorted
    kahnLoopF appMap fuel (rest ++ newZeros current entries) (decEntries current entries) sorted'

/-- `sort_apps_by_dependencies` from `claude_agent.py`: build the dependency
table, run Kahn's algorithm (FIFO queue seeded with the zero-in-degree nodes
in table order), and fall back to the original input if not every node was
emitted. -/
def sort_apps_by_dependencies (apps : List RApp) : List RApp :=
  let appMap := buildAppMap apps
  let entries := (buildDeps apps).map (fun kd => Entry.mk kd.1 kd.2 (kd.2.length : Int))
  let queue := (entries.filter (fun e => e.deg == 0)).map (·.id)
  let sorted := kahnLoopF appMap (posCount entries + queue.length) queue entries []
  if sorted.length = apps.length then sorted else apps

/-! ## Generator data model (`typescript_generator.py`) -/

/-- Replacement table of the four accent substitutions
`ä→ae, ö→oe, ü→ue, ß→ss`.  The source applies four sequential
`str.replace` calls; since the four targets are single characters and none of
the replacement texts contains any of the targets, the sequential replaces
are equivalent to this single character-wise expansion. -/
def deUmlaut (c : Char) : List Char :=
  if c = 'ä' then ['a', 'e']
  else if c = 'ö' then ['o', 'e']
  else if c = 'ü' then ['u', 'e']
  else if c = 'ß' then ['s', 's']
  else [c]

/-- The character class `[a-zA-Z0-9]` of the regex in `_to_pascal_case`. -/
def isAlnumA (c : Char) : Bool :=
  ('a' ≤ c && c ≤ 'z') || ('A' ≤ c && c ≤ 'Z') || ('0' ≤ c && c ≤ '9')

/-- Split a character list into maximal space-free words, dropping empty
pieces: Python `str.split()` on a string whose only whitespace is `' '`. -/
def toWords : List Char → List (List Char)
  | [] => []
  | c :: cs =>
    if c = ' ' then toWords cs
    else
      match toWords cs with
      | [] => [[c]]
      | w :: ws => if cs.headD ' ' = ' ' then [c] :: w :: ws else (c :: w) :: ws

/-- Python `str.capitalize()` on a character list: first character
upper-cased, all others lower-cased. -/
def capWord : List Char → List Char
  | [] => []
  | c :: cs => c.toUpper :: cs.map Char.toLower

/-- Character-list core of `_to_pascal_case`. -/
def pascalChars (cs : List Char) : List Char :=
  let cleaned := ((cs.map deUmlaut).flatten).map (fun c => if isAlnumA c then c else ' ')
  ((toWords cleaned).map capWord).flatten

/-- `_to_pascal_case` from `typescript_generator.py`: accent substitution,
replace every non-`[a-zA-Z0-9]` character with a space, split into words and
concatenate the `capitalize()` of each word. -/
def to_pascal_case (s : String) : String := String.mk (pascalChars s.data)

/-- Python `str.capitalize()` on a string (used to state what a second
application of `_to_pascal_case` actually computes). -/
def pyCapitalize (s : String) : String := String.mk (capWord s.data)

/-- Python `str.upper()` (character-wise; agrees with Python on ASCII). -/
def pyUpper (s : String) : String := String.mk (s.data.map Char.toUpper)

/-- Helper for `collapseUnderscores`: the boolean records whether the
previous kept character was an underscore (so further underscores of the
same run are dropped). -/
def collapseAux : Bool → List Char → List Char
  | _, [] => []
  | prevU, c :: cs =>
    if c = '_' then
      if prevU then collapseAux true cs else '_' :: collapseAux true cs
    else c :: collapseAux false cs

/-- `re.sub(r"_+", "_", s)`: collapse every run of underscores to one (the
first underscore of a run is kept, the rest dropped). -/
def collapseUnderscores (l : List Char) : List Char := collapseAux false l

/-- The constant-name transform used for `APP_IDS` keys and the service:
`app_key.upper().replace("-", "_").replace("&", "").replace(" ", "_")`
followed by `re.sub(r"_+", "_", ...)`.  Note `"&"` is replaced by the empty
string (deleted), not by an underscore. -/
def constName (key : String) : String :=
  let s1 := key.data.map Char.toUpper
  let s2 := s1.map (fun c => if c = '-' then '_' else c)
  let s3 := s2.filter (fun c => ¬ (c = '&'))
  let s4 := s3.map (fun c => if c = ' ' then '_' else c)
  String.mk (collapseUnderscores s4)

/-- One control dict as read by the generator (`_map_type` reads
`fulltype` with default `"string"` and `lookup_data`; the comment logic reads
`fulltype` with default `""` and `lookup_app`; `required` is carried by the
metadata but never read by the generator). -/
structure GCtrl where
  fulltype : Option String
  lookup_data : Option (List String)
  lookup_app : Option String
  required : Option Bool
deriving DecidableEq

/-- One app of the generator metadata (`data["app_id"]`, `data["name"]`,
`data["controls"]` as an insertion-ordered item list). -/
structure GApp where
  app_id : String
  name : String
  controls : List (String × GCtrl)
deriving DecidableEq

/-- `_map_type` from `typescript_generator.py`. -/
def map_type (control : GCtrl) : String :=
  let ftype := control.fulltype.getD "string"
  if ftype = "number" then "number"
  else if ftype = "bool" then "boolean"
  else if ftype = "date/date" ∨ ftype = "date/datetimeminute" then "string"
  else if ftype = "lookup/select" ∧ control.lookup_data.isSome then
    let options := (control.lookup_data.getD []).map (fun k => "\x27" ++ k ++ "\x27")
    if options.isEmpty then "string" else String.intercalate " | " options
  else "string"

/-- The `app_id_to_name` helper map of `generate_types`: app id to
PascalCase name, built once over the whole batch. -/
def appIdToName (apps : List (String × GApp)) : List (String × String) :=
  apps.foldl (fun m kv => upsert kv.2.app_id (to_pascal_case kv.1) m) []

/-- Split a character list at every occurrence of a separator character
(the pieces do not contain the separator; `n` separators give `n+1` pieces,
exactly like Python `str.split` with a one-character separator). -/
def splitOnChar (sep : Char) : List Char → List (List Char)
  | [] => [[]]
  | c :: cs =>
    if c = sep then [] :: splitOnChar sep cs
    else
      match splitOnChar sep cs with
      | [] => [[c]]
      | w :: ws => (c :: w) :: ws

/-- Python `url.split("/")`: the separator is the single character `'/'`. -/
def pySplitSlash (s : String) : List String := (splitOnChar '/' s.data).map String.mk

/-- The "Smart Comment" of `generate_types` for one control.  With
`lookup_app` embedded as a string, `str.split` cannot raise, so the
`except:` branch of the source (generic comment without a target name) is
unreachable; a target id missing from the map degrades to `'UnknownApp'`. -/
def smartComment (idToName : List (String × String)) (ctrl : GCtrl) : String :=
  let fulltype := ctrl.fulltype.getD ""
  if pyIn "date" fulltype then " \x2f\x2f Format: YYYY-MM-DD oder ISO String"
  else if fulltype = "applookup/select" ∧ ctrl.lookup_app.isSome then
    let target_id := (pySplitSlash (ctrl.lookup_app.getD "")).getLastD ""
    let target_name := (lookupL idToName target_id).getD "UnknownApp"
    " \x2f\x2f applookup -> URL zu \x27" ++ target_name ++ "\x27 Record"
  else ""

/-- The emitted line for one field:
`f"    {ctrl_key}?: {ts_type};{comment}"` — always optional (`?:`). -/
def fieldLine (idToName : List (String × String)) (key : String) (ctrl : GCtrl) : String :=
  "    " ++ key ++ "?: " ++ map_type ctrl ++ ";" ++ smartComment idToName ctrl

/-- The interface block emitted for one app. -/
def interfaceLines (idToName : List (String × String)) (key : String) (app : GApp) :
    List String :=
  ["export interface " ++ to_pascal_case key ++ " \x7b",
   "  record_id: string;",
   "  createdat: string;",
   "  updatedat: string | null;",
   "  fields: \x7b"]
  ++ app.controls.map (fun kc => fieldLine idToName kc.1 kc.2)
  ++ ["  \x7d;", "\x7d", ""]

/-- The `APP_IDS` constant block. -/
def appIdsLines (apps : List (String × GApp)) : List String :=
  ["export const APP_IDS = \x7b"]
  ++ apps.map (fun kv => "  " ++ constName kv.1 ++ ": \x27" ++ kv.2.app_id ++ "\x27,")
  ++ ["\x7d as const;", ""]

/-- All lines of `generate_types` in emission order. -/
def typesLines (apps : List (String × GApp)) : List String :=
  ["\x2f\x2f AUTOMATICALLY GENERATED TYPES - DO NOT EDIT", ""]
  ++ (apps.map (fun kv => interfaceLines (appIdToName apps) kv.1 kv.2)).flatten
  ++ appIdsLines apps
  ++ ["\x2f\x2f Helper Types for creating new records"]
  ++ apps.map (fun kv =>
      "export type Create" ++ to_pascal_case kv.1 ++ " = " ++ to_pascal_case kv.1
        ++ "[\x27fields\x27];")

/-- `generate_types`: `"\n".join(lines)`. -/
def generate_types (apps : List (String × GApp)) : String :=
  String.intercalate "\n" (typesLines apps)

/-- The singularization heuristic of `generate_service`:
`class_name[:-1] if class_name.endswith("s") else f"{class_name}Entry"`. -/
def singularName (className : String) : String :=
  if className.data.getLastD ' ' = 's' then String.mk className.data.dropLast
  else className ++ "Entry"

/-- The method block emitted for one app by `generate_service`. -/
def serviceAppLines (key : String) : List String :=
  let className := to_pascal_case key
  let constN := constName key
  let singular := singularName className
  ["  \x2f\x2f \x2d\x2d\x2d " ++ pyUpper key ++ " \x2d\x2d\x2d",
   "  static async get" ++ className ++ "(): Promise<" ++ className ++ "[]> \x7b",
   "    const data = await callApi(\x27GET\x27, \x60\x2fapps\x2f$\x7bAPP_IDS." ++ constN
     ++ "\x7d\x2frecords\x60);",
   "    return Object.entries(data).map(([id, rec]: [string, any]) => (\x7b",
   "      record_id: id, ...rec",
   "    \x7d));",
   "  \x7d",
   "  static async get" ++ singular ++ "(id: string): Promise<" ++ className
     ++ " | undefined> \x7b",
   "    const data = await callApi(\x27GET\x27, \x60\x2fapps\x2f$\x7bAPP_IDS." ++ constN
     ++ "\x7d\x2frecords\x2f$\x7bid\x7d\x60);",
   "    return \x7b record_id: data.id, ...data \x7d;",
   "  \x7d",
   "  static async create" ++ singular ++ "(fields: " ++ className
     ++ "[\x27fields\x27]) \x7b",
   "    return callApi(\x27POST\x27, \x60\x2fapps\x2f$\x7bAPP_IDS." ++ constN
     ++ "\x7d\x2frecords\x60, \x7b fields \x7d);",
   "  \x7d",
   "  static async update" ++ singular ++ "(id: string, fields: Partial<" ++ className
     ++ "[\x27fields\x27]>) \x7b",
   "    return callApi(\x27PATCH\x27, \x60\x2fapps\x2f$\x7bAPP_IDS." ++ constN
     ++ "\x7d\x2frecords\x2f$\x7bid\x7d\x60, \x7b fields \x7d);",
   "  \x7d",
   "  static async delete" ++ singular ++ "(id: string) \x7b",
   "    return callApi(\x27DELETE\x27, \x60\x2fapps\x2f$\x7bAPP_IDS." ++ constN
     ++ "\x7d\x2frecords\x2f$\x7bid\x7d\x60);",
   "  \x7d",
   ""]

/-- The static header of `generate_service`. -/
def serviceHeaderLines (apps : List (String × GApp)) : List String :=
  ["\x2f\x2f AUTOMATICALLY GENERATED SERVICE",
   "import \x7b APP_IDS \x7d from \x27@/types/app\x27;",
   "import type \x7b " ++ String.intercalate ", " (apps.map (fun kv => to_pascal_case kv.1))
     ++ " \x7d from \x27@/types/app\x27;",
   "",
   "\x2f\x2f Base Configuration",
   "const API_BASE_URL = \x27https:\x2f\x2fmy.living-apps.de\x2frest\x27;",
   "",
   "\x2f\x2f \x2d\x2d\x2d HELPER FUNCTIONS \x2d\x2d\x2d",
   "export function extractRecordId(url: string | null | undefined): string | null \x7b",
   "  if (!url) return null;",
   "  \x2f\x2f Extrahiere die letzten 24 Hex-Zeichen mit Regex",
   "  const match = url.match(\x2f([a-f0-9]\x7b24\x7d)$\x2fi);",
   "  return match ? match[1] : null;",
   "\x7d",
   "",
   "export function createRecordUrl(appId: string, recordId: string): string \x7b",
   "  return \x60https:\x2f\x2fmy.living-apps.de\x2frest\x2fapps\x2f$\x7bappId\x7d\x2frecords\x2f$\x7brecordId\x7d\x60;",
   "\x7d",
   "",
   "async function callApi(method: string, endpoint: string, data?: any) \x7b",
   "  const response = await fetch(\x60$\x7bAPI_BASE_URL\x7d$\x7bendpoint\x7d\x60, \x7b",
   "    method,",
   "    headers: \x7b \x27Content-Type\x27: \x27application\x2fjson\x27 \x7d,",
   "    credentials: \x27include\x27,  \x2f\x2f Nutze Session Cookies für Auth",
   "    body: data ? JSON.stringify(data) : undefined",
   "  \x7d);",
   "  if (!response.ok) throw new Error(await response.text());",
   "  \x2f\x2f DELETE returns often empty body or simple status",
   "  if (method === \x27DELETE\x27) return true;",
   "  return response.json();",
   "\x7d",
   "",
   "export class LivingAppsService \x7b"]

/-- All lines of `generate_service` in emission order. -/
def serviceLines (apps : List (String × GApp)) : List String :=
  serviceHeaderLines apps
  ++ (apps.map (fun kv => serviceAppLines kv.1)).flatten
  ++ ["\x7d"]

/-- `generate_service`: `"\n".join(lines)`. -/
def generate_service (apps : List (String × GApp)) : String :=
  String.intercalate "\n" (serviceLines apps)

/-! ## Specification vocabulary for the resolver -/

/-- Edge of the cross-reference graph of a batch: some app with identifier
`a` has an `applookup` reference to `b`. -/
def edgeB (apps : List RApp) (a b : String) : Bool :=
  apps.any (fun app => app.identifier == a && decide (b ∈ refsOf app))

/-- Consecutive edges along a list of identifiers. -/
def chainB (apps : List RApp) : List String → Bool
  | [] => true
  | [_] => true
  | a :: b :: rest => edgeB apps a b && chainB apps (b :: rest)

/-- A (possibly length-one) dependency cycle in the cross-reference graph of
a batch: consecutive edges along the list, plus the wrap-around edge from
the last identifier back to the first. -/
def IsCycle (apps : List RApp) (l : List String) : Prop :=
  l ≠ [] ∧ chainB apps l = true ∧ edgeB apps (l.getLastD "") (l.headD "") = true

/-- The emitted prefix respects dependencies: every emitted identifier's
dependency set (per the table `DM`) is contained in the earlier emissions. -/
def OrderOK (DM : List (String × List String)) (E : List String) : Prop :=
  ∀ i (h : i < E.length), ∀ d ∈ (lookupL DM (E.get ⟨i, h⟩)).getD [], d ∈ E.take i

/-- Static facts about the dependency table and app map the loop runs over. -/
structure KCtx (DM : List (String × List String)) (AM : List (String × RApp)) : Prop where
  keysEq : AM.map Prod.fst = DM.map Prod.fst
  keysNodup : (DM.map Prod.fst).Nodup
  amIds : ∀ kv ∈ AM, kv.2.identifier = kv.1
  depsNodup : ∀ kv ∈ DM, kv.2.Nodup

/-- Loop invariant of the Kahn loop, phrased over the emitted identifier list
`sorted.map RApp.identifier`. -/
structure KInv (DM : List (String × List String)) (AM : List (String × RApp))
    (queue : List String) (entries : List Entry) (sorted : List RApp) : Prop where
  entriesEq : entries.map (fun e => (e.id, e.deps)) = DM
  degEq : ∀ e ∈ entries,
    e.deg = (e.deps.length : Int) - ((sorted.map RApp.identifier).countP (fun x => decide (x ∈ e.deps)) : Int)
  nodup : ((sorted.map RApp.identifier) ++ queue).Nodup
  inKeys : ∀ x ∈ (sorted.map RApp.identifier) ++ queue, x ∈ DM.map Prod.fst
  queueReady : ∀ q ∈ queue, ∀ d ∈ (lookupL DM q).getD [], d ∈ sorted.map RApp.identifier
  ordered : OrderOK DM (sorted.map RApp.identifier)
  degZero : ∀ e ∈ entries, e.deg = 0 → e.id ∈ (sorted.map RApp.identifier) ++ queue
  sortedOK : ∀ a ∈ sorted, lookupL AM a.identifier = some a

/-- Postcondition of the completed Kahn loop. -/
structure KOut (DM : List (String × List String)) (AM : List (String × RApp))
    (R : List RApp) : Prop where
  nodup : (R.map RApp.identifier).Nodup
  inKeys : ∀ x ∈ R.map RApp.identifier, x ∈ DM.map Prod.fst
  ordered : OrderOK DM (R.map RApp.identifier)
  appsLookup : ∀ a ∈ R, lookupL AM a.identifier = some a
  complete : ∀ k ∈ DM.map Prod.fst,
    (∀ d ∈ (lookupL DM k).getD [], d ∈ R.map RApp.identifier) → k ∈ R.map RApp.identifier

/-! ## Concrete example batches used in witnesses and counterexamples -/

/-- Resolver input: the `employees` definition of the end-to-end scenario. -/
def empR : RApp := ⟨"employees", []⟩

/-- Resolver input: the `teams` definition with one cross-reference field
targeting `employees`. -/
def teamsR : RApp := ⟨"teams", [⟨some "applookup/select", some "employees"⟩]⟩

/-- An `employees` variant carrying a true self-reference. -/
def selfEmpR : RApp := ⟨"employees", [⟨some "applookup/select", some "employees"⟩]⟩

/-- Two apps referencing each other: a two-node dependency cycle. -/
def cycAR : RApp := ⟨"a", [⟨some "applookup/select", some "b"⟩]⟩

/-- Second node of the two-node cycle. -/
def cycBR : RApp := ⟨"b", [⟨some "applookup/select", some "a"⟩]⟩

/-- An app with a dangling cross-reference (target absent from the batch). -/
def dangR : RApp := ⟨"d", [⟨some "applookup/select", some "missing"⟩]⟩

/-- The resolved cross-reference control of the `teams` definition in the
end-to-end scenario. -/
def leadCtrl : GCtrl :=
  ⟨some "applookup/select", none,
   some "https:\x2f\x2fmy.living-apps.de\x2frest\x2fapps\x2fE1", none⟩

/-- The materialized `employees` definition of the end-to-end scenario. -/
def empG : GApp := ⟨"E1", "Employees", []⟩

/-- The materialized `teams` definition of the end-to-end scenario. -/
def teamsG : GApp := ⟨"T1", "Teams", [("lead", leadCtrl)]⟩

/-- Generator metadata of the end-to-end scenario (`employees` materialized
as `E1`, `teams` as `T1` with the resolved reference URL). -/
def meta8 : List (String × GApp) := [("employees", empG), ("teams", teamsG)]

/-! ## Association-list lemmas -/

theorem upsert_keys {α : Type} (k : String) (v : α) (m : List (String × α)) :
    (upsert k v m).map Prod.fst
      = if k ∈ m.map Prod.fst then m.map Prod.fst else m.map Prod.fst ++ [k] := by
  induction m with
  | nil => simp [upsert]
  | cons kv rest ih =>
    obtain ⟨k', v'⟩ := kv
    by_cases h : k' = k
    · subst h
      simp [upsert]
    · by_cases h2 : k ∈ rest.map Prod.fst
      · have hmem : k ∈ ((k', v') :: rest : List (String × _)).map Prod.fst := by simp [h2]
        simp [upsert, h, ih, h2, hmem]
      · have hmem : k ∉ ((k', v') :: rest : List (String × _)).map Prod.fst := by
          simp only [List.map_cons, List.mem_cons]
          push_neg
          exact ⟨fun hh => h hh.symm, h2⟩
        simp [upsert, h, ih, h2, hmem, Ne.symm h]

theorem upsert_keys_nodup {α : Type} (k : String) (v : α) (m : List (String × α))
    (h : (m.map Prod.fst).Nodup) : ((upsert k v m).map Prod.fst).Nodup := by
  rw [upsert_keys]
  by_cases hk : k ∈ m.map Prod.fst
  · simpa [hk]
  · simpa [hk] using List.Nodup.append h (List.nodup_singleton k) (by simpa using hk)

theorem lookupL_upsert_self {α : Type} (k : String) (v : α) (m : List (String × α)) :
    lookupL (upsert k v m) k = some v := by
  induction m with
  | nil => simp [upsert, lookupL]
  | cons kv rest ih =>
    obtain ⟨k', v'⟩ := kv
    by_cases h : k' = k
    · subst h; simp [upsert, lookupL]
    · simp [upsert, lookupL, h, ih]

theorem lookupL_upsert_ne {α : Type} (k k' : String) (v : α) (m : List (String × α))
    (h : k' ≠ k) : lookupL (upsert k v m) k' = lookupL m k' := by
  induction m with
  | nil => simp [upsert, lookupL, Ne.symm h]
  | cons kv rest ih =>
    obtain ⟨k0, v0⟩ := kv
    by_cases h0 : k0 = k
    · subst h0; simp [upsert, lookupL, Ne.symm h]
    · by_cases h1 : k0 = k'
      · subst h1; simp [upsert, lookupL, h0]
      · simp [upsert, lookupL, h0, h1, ih]

theorem mem_upsert {α : Type} {kv : String × α} {k : String} {v : α}
    {m : List (String × α)} (h : kv ∈ upsert k v m) : kv = (k, v) ∨ kv ∈ m := by
  induction m with
  | nil => simpa [upsert] using h
  | cons kv0 rest ih =>
    obtain ⟨k0, v0⟩ := kv0
    by_cases h0 : k0 = k
    · subst h0
      rcases (by simpa [upsert] using h : kv = (k0, v) ∨ kv ∈ rest) with h1 | h1
      · exact Or.inl h1
      · exact Or.inr (List.mem_cons_of_mem _ h1)
    · rcases (by simpa [upsert, h0] using h : kv = (k0, v0) ∨ kv ∈ upsert k v rest) with h1 | h1
      · exact Or.inr (by simp [h1])
      · rcases ih h1 with h2 | h2
        · exact Or.inl h2
        · exact Or.inr (List.mem_cons_of_mem _ h2)

theorem upsert_of_not_mem {α : Type} {k : String} (v : α) {m : List (String × α)}
    (h : k ∉ m.map Prod.fst) : upsert k v m = m ++ [(k, v)] := by
  induction m with
  | nil => simp [upsert]
  | cons kv rest ih =>
    obtain ⟨k0, v0⟩ := kv
    have h0 : k0 ≠ k := by rintro rfl; simp at h
    simp only [List.map_cons, List.mem_cons] at h
    push_neg at h
    simp [upsert, h0, ih h.2]

theorem lookupL_mem {α : Type} {m : List (String × α)} {k : String} {v : α}
    (h : lookupL m k = some v) : (k, v) ∈ m := by
  induction m with
  | nil => simp [lookupL] at h
  | cons kv rest ih =>
    obtain ⟨k0, v0⟩ := kv
    by_cases h0 : k0 = k
    · subst h0
      simp [lookupL] at h
      simp [h]
    · simp [lookupL, h0] at h
      exact List.mem_cons_of_mem _ (ih h)

theorem lookupL_isSome_of_mem_keys {α : Type} {m : List (String × α)} {k : String}
    (h : k ∈ m.map Prod.fst) : (lookupL m k).isSome := by
  induction m with
  | nil => simp at h
  | cons kv rest ih =>
    obtain ⟨k0, v0⟩ := kv
    by_cases h0 : k0 = k
    · subst h0; simp [lookupL]
    · simp only [List.map_cons, List.mem_cons] at h
      rcases h with h | h
      · exact absurd h.symm h0
      · simp [lookupL, h0, ih h]

theorem lookupL_of_mem_nodup {α : Type} {m : List (String × α)} {k : String} {v : α}
    (hnd : (m.map Prod.fst).Nodup) (h : (k, v) ∈ m) : lookupL m k = some v := by
  induction m with
  | nil => simp at h
  | cons kv rest ih =>
    obtain ⟨k0, v0⟩ := kv
    simp only [List.map_cons, List.nodup_cons] at hnd
    rcases List.mem_cons.mp h with h1 | h1
    · obtain ⟨rfl, rfl⟩ := Prod.mk.inj h1
      simp [lookupL]
    · have hk : k0 ≠ k := by
        rintro rfl
        exact hnd.1 (by simpa using List.mem_map_of_mem Prod.fst h1)
      simp [lookupL, hk, ih hnd.2 h1]

theorem mem_keys_of_lookupL {α : Type} {m : List (String × α)} {k : String} {v : α}
    (h : lookupL m k = some v) : k ∈ m.map Prod.fst := by
  simpa using List.mem_map_of_mem Prod.fst (lookupL_mem h)

/-! ## Counting and cardinality lemmas -/

theorem countP_mem_eq_length {l₁ l₂ : List String} (h₂ : l₂.Nodup) (h₁ : l₁.Nodup)
    (hsub : ∀ x ∈ l₁, x ∈ l₂) :
    l₂.countP (fun x => decide (x ∈ l₁)) = l₁.length := by
  rw [List.countP_eq_length_filter]
  have hf : (l₂.filter (fun x => decide (x ∈ l₁))).toFinset = l₁.toFinset := by
    ext x
    simp only [List.mem_toFinset, List.mem_filter, decide_eq_true_iff]
    exact ⟨fun hx => hx.2, fun hx => ⟨hsub x hx, hx⟩⟩
  have hnd : (l₂.filter (fun x => decide (x ∈ l₁))).Nodup := h₂.filter _
  calc (l₂.filter (fun x => decide (x ∈ l₁))).length
      = (l₂.filter (fun x => decide (x ∈ l₁))).toFinset.card := (List.toFinset_card_of_nodup hnd).symm
    _ = l₁.toFinset.card := by rw [hf]
    _ = l₁.length := List.toFinset_card_of_nodup h₁

theorem subset_of_countP_mem_eq_length {l₁ l₂ : List String} (h₂ : l₂.Nodup) (h₁ : l₁.Nodup)
    (hcnt : l₂.countP (fun x => decide (x ∈ l₁)) = l₁.length) :
    ∀ x ∈ l₁, x ∈ l₂ := by
  intro x hx
  rw [List.countP_eq_length_filter] at hcnt
  set f := l₂.filter (fun x => decide (x ∈ l₁)) with hfdef
  have hfnd : f.Nodup := h₂.filter _
  have hfsub : f.toFinset ⊆ l₁.toFinset := by
    intro y hy
    simp only [hfdef, List.mem_toFinset, List.mem_filter, decide_eq_true_iff] at hy ⊢
    exact hy.2
  have hcard : l₁.toFinset.card ≤ f.toFinset.card := by
    rw [List.toFinset_card_of_nodup hfnd, List.toFinset_card_of_nodup h₁, hcnt]
  have : f.toFinset = l₁.toFinset := Finset.eq_of_subset_of_card_le hfsub hcard
  have hxf : x ∈ f := by
    rw [← List.mem_toFinset, this] at *
    simpa [List.mem_toFinset] using hx
  exact (List.mem_filter.mp hxf).1

theorem length_le_of_subset_nodup {l₁ l₂ : List String} (h₁ : l₁.Nodup)
    (hsub : ∀ x ∈ l₁, x ∈ l₂) : l₁.length ≤ l₂.length := by
  calc l₁.length = l₁.toFinset.card := (List.toFinset_card_of_nodup h₁).symm
    _ ≤ l₂.toFinset.card := Finset.card_le_card (by
        intro x hx
        simp only [List.mem_toFinset] at hx ⊢
        exact hsub x hx)
    _ ≤ l₂.length := l₂.toFinset_card_le

theorem length_lt_of_missing {l₁ l₂ : List String} (h₁ : l₁.Nodup) (h₂ : l₂.Nodup)
    (hsub : ∀ x ∈ l₁, x ∈ l₂) {x : String} (hx₂ : x ∈ l₂) (hx₁ : x ∉ l₁) :
    l₁.length < l₂.length := by
  calc l₁.length = l₁.toFinset.card := (List.toFinset_card_of_nodup h₁).symm
    _ < l₂.toFinset.card := Finset.card_lt_card (by
        constructor
        · intro y hy
          simp only [List.mem_toFinset] at hy ⊢
          exact hsub y hy
        · intro hcon
          exact hx₁ (by simpa [List.mem_toFinset] using hcon (by simpa [List.mem_toFinset] using hx₂)))
    _ = l₂.length := List.toFinset_card_of_nodup h₂

/-! ## Builder lemmas -/

theorem addSet_nodup {l : List String} (h : l.Nodup) (x : String) : (addSet l x).Nodup := by
  unfold addSet
  by_cases hx : x ∈ l
  · simpa [hx]
  · simpa [hx] using List.Nodup.append h (List.nodup_singleton x) (by simpa using hx)

theorem foldl_refs_nodup (ctrls : List RCtrl) :
    ∀ init : List String, init.Nodup →
      (ctrls.foldl
        (fun deps c =>
          if pyIn "applookup" (c.fulltype.getD "") then
            match c.lookup_app_ref with
            | some r => if r = "" then deps else addSet deps r
            | none => deps
          else deps)
        init).Nodup := by
  induction ctrls with
  | nil => intro init h; simpa using h
  | cons c rest ih =>
    intro init h
    simp only [List.foldl_cons]
    apply ih
    by_cases hft : pyIn "applookup" (c.fulltype.getD "")
    · cases hr : c.lookup_app_ref with
      | none => simpa [hft]
      | some r =>
        by_cases hre : r = ""
        · simpa [hft, hre]
        · simpa [hft, hre] using addSet_nodup h r
    · simpa [hft]

theorem refsOf_nodup (app : RApp) : (refsOf app).Nodup :=
  foldl_refs_nodup app.controls [] List.nodup_nil

theorem foldl_upsert_keys_congr {α β : Type} (f : RApp → α) (g : RApp → β) :
    ∀ (apps : List RApp) (m₁ : List (String × α)) (m₂ : List (String × β)),
      m₁.map Prod.fst = m₂.map Prod.fst →
      (apps.foldl (fun m a => upsert a.identifier (f a) m) m₁).map Prod.fst
        = (apps.foldl (fun m a => upsert a.identifier (g a) m) m₂).map Prod.fst := by
  intro apps
  induction apps with
  | nil => intro m₁ m₂ h; simpa using h
  | cons a rest ih =>
    intro m₁ m₂ h
    simp only [List.foldl_cons]
    apply ih
    rw [upsert_keys, upsert_keys, h]

theorem foldl_upsert_keys_nodup {α : Type} (f : RApp → α) :
    ∀ (apps : List RApp) (m : List (String × α)), (m.map Prod.fst).Nodup →
      ((apps.foldl (fun m a => upsert a.identifier (f a) m) m).map Prod.fst).Nodup := by
  intro apps
  induction apps with
  | nil => intro m h; simpa using h
  | cons a rest ih =>
    intro m h
    simp only [List.foldl_cons]
    exact ih _ (upsert_keys_nodup _ _ _ h)

theorem foldl_upsert_mem {α : Type} (f : RApp → α) :
    ∀ (apps : List RApp) (m : List (String × α)) (kv : String × α),
      kv ∈ apps.foldl (fun m a => upsert a.identifier (f a) m) m →
      kv ∈ m ∨ ∃ a ∈ apps, kv = (a.identifier, f a) := by
  intro apps
  induction apps with
  | nil => intro m kv h; exact Or.inl (by simpa using h)
  | cons a rest ih =>
    intro m kv h
    simp only [List.foldl_cons] at h
    rcases ih _ _ h with h1 | ⟨b, hb, rfl⟩
    · rcases mem_upsert h1 with h2 | h2
      · exact Or.inr ⟨a, by simp, h2⟩
      · exact Or.inl h2
    · exact Or.inr ⟨b, List.mem_cons_of_mem _ hb, rfl⟩

theorem foldl_upsert_keys_mono {α : Type} (f : RApp → α) :
    ∀ (apps : List RApp) (m : List (String × α)) (k : String), k ∈ m.map Prod.fst →
      k ∈ (apps.foldl (fun m a => upsert a.identifier (f a) m) m).map Prod.fst := by
  intro apps
  induction apps with
  | nil => intro m k h; simpa using h
  | cons a rest ih =>
    intro m k h
    simp only [List.foldl_cons]
    apply ih
    rw [upsert_keys]
    by_cases hk : a.identifier ∈ m.map Prod.fst
    · rw [if_pos hk]; exact h
    · rw [if_neg hk]; exact List.mem_append_left _ h

theorem foldl_upsert_key_mem {α : Type} (f : RApp → α) :
    ∀ (apps : List RApp) (m : List (String × α)) (a : RApp), a ∈ apps →
      a.identifier ∈ (apps.foldl (fun m a => upsert a.identifier (f a) m) m).map Prod.fst := by
  intro apps
  induction apps with
  | nil => intro m a h; simp at h
  | cons b rest ih =>
    intro m a h
    simp only [List.foldl_cons]
    rcases List.mem_cons.mp h with rfl | h1
    · apply foldl_upsert_keys_mono
      rw [upsert_keys]
      by_cases hk : a.identifier ∈ m.map Prod.fst
      · rw [if_pos hk]; exact hk
      · rw [if_neg hk]; simp
    · exact ih _ _ h1

theorem foldl_upsert_fresh {α : Type} (f : RApp → α) :
    ∀ (apps : List RApp) (m : List (String × α)),
      ((m.map Prod.fst) ++ apps.map RApp.identifier).Nodup →
      apps.foldl (fun m a => upsert a.identifier (f a) m) m
        = m ++ apps.map (fun a => (a.identifier, f a)) := by
  intro apps
  induction apps with
  | nil => intro m _; simp
  | cons a rest ih =>
    intro m h
    rcases List.nodup_append.mp h with ⟨h1, h2, hdisj⟩
    have hfresh : a.identifier ∉ m.map Prod.fst := by
      intro hc
      exact hdisj hc (by simp)
    simp only [List.foldl_cons, upsert_of_not_mem (f a) hfresh]
    have hrec := ih (m ++ [(a.identifier, f a)]) (by
      simp only [List.map_append, List.map_cons, List.map_nil, List.append_assoc,
        List.singleton_append]
      simpa using h)
    rw [hrec, List.append_assoc]
    simp

/-! ## Kahn loop: small-step characterizations -/

theorem posCount_cons (e : Entry) (es : List Entry) :
    posCount (e :: es) = posCount es + (if 0 < e.deg then 1 else 0) := by
  simp [posCount, List.countP_cons]

theorem decEntries_cons (cur : String) (e : Entry) (es : List Entry) :
    decEntries cur (e :: es)
      = (if cur ∈ e.deps then ⟨e.id, e.deps, e.deg - 1⟩ else e) :: decEntries cur es := by
  simp [decEntries]

theorem newZeros_cons (cur : String) (e : Entry) (es : List Entry) :
    newZeros cur (e :: es)
      = (if cur ∈ e.deps ∧ e.deg - 1 = 0 then [e.id] else []) ++ newZeros cur es := by
  by_cases h1 : cur ∈ e.deps
  · by_cases h2 : e.deg - 1 = 0
    · simp [newZeros, List.filter_cons, h1, h2]
    · simp [newZeros, List.filter_cons, h1, h2]
  · simp [newZeros, List.filter_cons, h1]

theorem dec_measure (cur : String) : ∀ entries : List Entry,
    posCount (decEntries cur entries) + (newZeros cur entries).length ≤ posCount entries := by
  intro entries
  induction entries with
  | nil => simp [decEntries, newZeros, posCount]
  | cons e es ih =>
    rw [decEntries_cons, newZeros_cons, posCount_cons, posCount_cons, List.length_append]
    have hd : (Entry.mk e.id e.deps (e.deg - 1)).deg = e.deg - 1 := rfl
    by_cases h1 : cur ∈ e.deps
    · rw [if_pos h1, hd]
      by_cases h2 : e.deg - 1 = 0
      · rw [if_pos (show cur ∈ e.deps ∧ e.deg - 1 = 0 from ⟨h1, h2⟩),
          if_neg (show ¬ (0:Int) < e.deg - 1 by omega),
          if_pos (show (0:Int) < e.deg by omega)]
        simp only [List.length_singleton]
        omega
      · rw [if_neg (show ¬ (cur ∈ e.deps ∧ e.deg - 1 = 0) from fun hc => h2 hc.2)]
        simp only [List.length_nil]
        by_cases h3 : (0:Int) < e.deg - 1
        · rw [if_pos h3, if_pos (show (0:Int) < e.deg by omega)]
          omega
        · rw [if_neg h3]
          split <;> omega
    · rw [if_neg h1, if_neg (show ¬ (cur ∈ e.deps ∧ e.deg - 1 = 0) from fun hc => h1 hc.1)]
      simp only [List.length_nil]
      split <;> omega

theorem mem_newZeros {cur p : String} {entries : List Entry} :
    p ∈ newZeros cur entries ↔ ∃ e ∈ entries, e.id = p ∧ cur ∈ e.deps ∧ e.deg - 1 = 0 := by
  simp only [newZeros, List.mem_map, List.mem_filter, Bool.and_eq_true, decide_eq_true_iff,
    beq_iff_eq]
  constructor
  · rintro ⟨e, ⟨he, hd, hz⟩, rfl⟩
    exact ⟨e, he, rfl, hd, hz⟩
  · rintro ⟨e, he, rfl, hd, hz⟩
    exact ⟨e, ⟨he, hd, hz⟩, rfl⟩

theorem mem_decEntries {cur : String} {entries : List Entry} {e' : Entry} :
    e' ∈ decEntries cur entries ↔
      ∃ e ∈ entries, e' = if cur ∈ e.deps then Entry.mk e.id e.deps (e.deg - 1) else e := by
  simp only [decEntries, List.mem_map]
  constructor
  · rintro ⟨e, he, rfl⟩; exact ⟨e, he, rfl⟩
  · rintro ⟨e, he, rfl⟩; exact ⟨e, he, rfl⟩

theorem decEntries_map_idDeps (cur : String) (entries : List Entry) :
    (decEntries cur entries).map (fun e => (e.id, e.deps))
      = entries.map (fun e => (e.id, e.deps)) := by
  induction entries with
  | nil => simp [decEntries]
  | cons e es ih =>
    rw [decEntries_cons]
    by_cases h : cur ∈ e.deps
    · simp [h, ih]
    · simp [h, ih]

theorem newZeros_sublist_ids (cur : String) (entries : List Entry) :
    (newZeros cur entries).Sublist (entries.map Entry.id) :=
  List.Sublist.map Entry.id (List.filter_sublist _)

/-! ## Kahn loop: invariant machinery -/

theorem entries_ids_eq_keys {DM : List (String × List String)} {entries : List Entry}
    (h : entries.map (fun e => (e.id, e.deps)) = DM) :
    entries.map Entry.id = DM.map Prod.fst := by
  rw [← h, List.map_map]
  rfl

theorem entry_lookup {DM : List (String × List String)} {entries : List Entry}
    (hnd : (DM.map Prod.fst).Nodup) (h : entries.map (fun e => (e.id, e.deps)) = DM)
    {e : Entry} (he : e ∈ entries) : lookupL DM e.id = some e.deps := by
  apply lookupL_of_mem_nodup hnd
  rw [← h]
  exact List.mem_map_of_mem _ he

theorem entry_of_key {DM : List (String × List String)} {entries : List Entry}
    (h : entries.map (fun e => (e.id, e.deps)) = DM)
    {k : String} (hk : k ∈ DM.map Prod.fst) :
    ∃ e ∈ entries, e.id = k := by
  rw [← h, List.map_map] at hk
  rcases List.mem_map.mp hk with ⟨e, he, hek⟩
  exact ⟨e, he, hek⟩

theorem entry_deps_nodup {DM : List (String × List String)} {entries : List Entry}
    (hdn : ∀ kv ∈ DM, kv.2.Nodup) (h : entries.map (fun e => (e.id, e.deps)) = DM)
    {e : Entry} (he : e ∈ entries) : e.deps.Nodup := by
  have : ((e.id, e.deps) : String × List String) ∈ DM := by
    rw [← h]; exact List.mem_map_of_mem _ he
  exact hdn _ this

theorem countP_append_singleton (p : String → Bool) (l : List String) (x : String) :
    (l ++ [x]).countP p = l.countP p + (if p x then 1 else 0) := by
  rw [List.countP_append]
  simp [List.countP_cons]

theorem mem_take_index {l : List String} {i : Nat} {x : String} (h : x ∈ l.take i) :
    ∃ j, ∃ hj : j < l.length, j < i ∧ l.get ⟨j, hj⟩ = x := by
  rcases List.mem_iff_getElem.mp h with ⟨j, hj, hx⟩
  have hjl : j < l.length := lt_of_lt_of_le hj ((List.take_sublist i l).length_le)
  have hji : j < i := lt_of_lt_of_le hj (by simp)
  refine ⟨j, hjl, hji, ?_⟩
  rw [List.get_eq_getElem]
  rw [List.getElem_take] at hx
  exact hx

set_option maxHeartbeats 1000000 in
theorem kinv_step {DM : List (String × List String)} {AM : List (String × RApp)}
    (hctx : KCtx DM AM) {current : String} {rest : List String}
    {entries : List Entry} {sorted : List RApp}
    (hinv : KInv DM AM (current :: rest) entries sorted) :
    ∃ app, lookupL AM current = some app ∧
      KInv DM AM (rest ++ newZeros current entries) (decEntries current entries)
        (sorted ++ [app]) := by
  set emitted := sorted.map RApp.identifier with hemdef
  have hcurMem : current ∈ emitted ++ current :: rest := by simp
  have hcurKey : current ∈ DM.map Prod.fst := hinv.inKeys current hcurMem
  have hcurKeyAM : current ∈ AM.map Prod.fst := by rw [hctx.keysEq]; exact hcurKey
  obtain ⟨app, happ⟩ := Option.isSome_iff_exists.mp (lookupL_isSome_of_mem_keys hcurKeyAM)
  have happId : app.identifier = current := hctx.amIds _ (lookupL_mem happ)
  refine ⟨app, happ, ?_⟩
  have hE' : (sorted ++ [app]).map RApp.identifier = emitted ++ [current] := by
    simp [happId, hemdef]
  rcases List.nodup_append.mp hinv.nodup with ⟨hemN, hcrN, hdisj⟩
  have hcurNotEm : current ∉ emitted := fun hc => hdisj hc (by simp)
  have hrestN : rest.Nodup := (List.nodup_cons.mp hcrN).2
  have hcurNotRest : current ∉ rest := (List.nodup_cons.mp hcrN).1
  have hE'N : (emitted ++ [current]).Nodup := by
    apply List.Nodup.append hemN (List.nodup_singleton current)
    intro x hx hx2
    rw [List.mem_singleton] at hx2
    subst hx2
    exact hcurNotEm hx
  obtain ⟨ecur, hecur, hecurId⟩ := entry_of_key hinv.entriesEq hcurKey
  have hecurLook : lookupL DM current = some ecur.deps := by
    rw [← hecurId]; exact entry_lookup hctx.keysNodup hinv.entriesEq hecur
  have hready : ∀ d ∈ ecur.deps, d ∈ emitted := by
    have h := hinv.queueReady current (by simp)
    rw [hecurLook] at h
    simp only [Option.getD_some] at h
    exact h
  have hdeg0 : ∀ e ∈ entries, (∀ d ∈ e.deps, d ∈ emitted) → e.deg = 0 := by
    intro e he hsub
    rw [hinv.degEq e he,
      countP_mem_eq_length hemN (entry_deps_nodup hctx.depsNodup hinv.entriesEq he) hsub]
    omega
  have hNZdeg : ∀ p ∈ newZeros current entries,
      ∃ e ∈ entries, e.id = p ∧ current ∈ e.deps ∧ e.deg = 1 := by
    intro p hp
    rcases mem_newZeros.mp hp with ⟨e, he, heid, hed, hez⟩
    exact ⟨e, he, heid, hed, by omega⟩
  have hNZfresh : ∀ p ∈ newZeros current entries, p ∉ emitted ∧ p ≠ current ∧ p ∉ rest := by
    intro p hp
    rcases hNZdeg p hp with ⟨e, he, heid, hed, hdeg1⟩
    have helook : lookupL DM e.id = some e.deps := entry_lookup hctx.keysNodup hinv.entriesEq he
    refine ⟨?_, ?_, ?_⟩
    · intro hpem
      rw [← heid] at hpem
      rcases List.mem_iff_get.mp hpem with ⟨⟨i, hi⟩, hgi⟩
      have hordered := hinv.ordered i hi
      rw [hgi, helook] at hordered
      simp only [Option.getD_some] at hordered
      have : e.deg = 0 := hdeg0 e he (fun d hd =>
        (List.take_sublist i emitted).mem (hordered d hd))
      omega
    · rintro rfl
      rw [heid, hecurLook] at helook
      have hdepsEq : ecur.deps = e.deps := Option.some.inj helook
      have : e.deg = 0 := hdeg0 e he (fun d hd => hready d (by rw [hdepsEq]; exact hd))
      omega
    · intro hprest
      have h := hinv.queueReady p (List.mem_cons_of_mem _ hprest)
      rw [← heid, helook] at h
      simp only [Option.getD_some] at h
      have : e.deg = 0 := hdeg0 e he h
      omega
  refine
    { entriesEq := ?_, degEq := ?_, nodup := ?_, inKeys := ?_, queueReady := ?_,
      ordered := ?_, degZero := ?_, sortedOK := ?_ }
  · rw [decEntries_map_idDeps]; exact hinv.entriesEq
  · intro e' he'
    rcases mem_decEntries.mp he' with ⟨e, he, rfl⟩
    rw [hE']
    have hold := hinv.degEq e he
    rw [← hemdef] at hold
    by_cases hin : current ∈ e.deps
    · simp only [if_pos hin]
      rw [countP_append_singleton]
      simp only [decide_eq_true_eq]
      rw [if_pos hin]
      push_cast
      omega
    · simp only [if_neg hin]
      rw [countP_append_singleton]
      simp only [decide_eq_true_eq]
      rw [if_neg hin]
      push_cast
      omega
  · rw [hE']
    have hbase : ((emitted ++ [current]) ++ rest).Nodup := by
      rw [List.append_assoc, List.singleton_append]
      exact hinv.nodup
    have hNZnd : (newZeros current entries).Nodup := by
      have hidsN : (entries.map Entry.id).Nodup := by
        rw [entries_ids_eq_keys hinv.entriesEq]; exact hctx.keysNodup
      exact (newZeros_sublist_ids current entries).nodup hidsN
    rw [← List.append_assoc]
    apply List.Nodup.append hbase hNZnd
    intro x hx hxNZ
    rcases hNZfresh x hxNZ with ⟨h1, h2, h3⟩
    rcases List.mem_append.mp hx with hx | hx
    · rcases List.mem_append.mp hx with hx | hx
      · exact h1 hx
      · exact h2 (by simpa using hx)
    · exact h3 hx
  · intro x hx
    rw [hE'] at hx
    rcases List.mem_append.mp hx with hx | hx
    · rcases List.mem_append.mp hx with hx | hx
      · exact hinv.inKeys x (List.mem_append_left _ hx)
      · rw [List.mem_singleton] at hx
        subst hx
        exact hcurKey
    · rcases List.mem_append.mp hx with hx | hx
      · exact hinv.inKeys x (List.mem_append_right _ (List.mem_cons_of_mem _ hx))
      · rcases hNZdeg x hx with ⟨e, he, heid, _, _⟩
        rw [← heid, ← entries_ids_eq_keys hinv.entriesEq]
        exact List.mem_map_of_mem _ he
  · intro q hq
    rw [hE']
    rcases List.mem_append.mp hq with hq | hq
    · intro d hd
      exact List.mem_append_left _ (hinv.queueReady q (List.mem_cons_of_mem _ hq) d hd)
    · rcases hNZdeg q hq with ⟨e, he, heid, hin, hdeg1⟩
      have helook : lookupL DM e.id = some e.deps :=
        entry_lookup hctx.keysNodup hinv.entriesEq he
      rw [← heid, helook]
      simp only [Option.getD_some]
      have hdn : e.deps.Nodup := entry_deps_nodup hctx.depsNodup hinv.entriesEq he
      have hcnt : (emitted ++ [current]).countP (fun x => decide (x ∈ e.deps))
          = e.deps.length := by
        rw [countP_append_singleton]
        simp only [decide_eq_true_eq]
        rw [if_pos hin]
        have hold := hinv.degEq e he
        rw [← hemdef] at hold
        omega
      exact subset_of_countP_mem_eq_length hE'N hdn hcnt
  · rw [hE']
    intro i hi d hd
    have hilen : i < emitted.length + 1 := by simpa using hi
    by_cases hlt : i < emitted.length
    · have hget : (emitted ++ [current]).get ⟨i, hi⟩ = emitted.get ⟨i, hlt⟩ := by
        simp [List.get_eq_getElem, List.getElem_append_left hlt]
      rw [hget] at hd
      have hmem := hinv.ordered i hlt d hd
      rw [List.take_append_of_le_length (le_of_lt hlt)]
      exact hmem
    · have hie : i = emitted.length := by omega
      subst hie
      have hget : (emitted ++ [current]).get ⟨emitted.length, hi⟩ = current := by
        simp [List.get_eq_getElem]
      rw [hget, hecurLook] at hd
      simp only [Option.getD_some] at hd
      rw [List.take_left]
      exact hready d hd
  · intro e' he' hz
    rcases mem_decEntries.mp he' with ⟨e, he, rfl⟩
    rw [hE']
    by_cases hin : current ∈ e.deps
    · simp only [if_pos hin] at hz ⊢
      have hmemNZ : e.id ∈ newZeros current entries :=
        mem_newZeros.mpr ⟨e, he, rfl, hin, by simpa using hz⟩
      exact List.mem_append_right _ (List.mem_append_right _ hmemNZ)
    · simp only [if_neg hin] at hz ⊢
      have h := hinv.degZero e he hz
      rcases List.mem_append.mp h with h | h
      · exact List.mem_append_left _ (List.mem_append_left _ h)
      · rcases List.mem_cons.mp h with h | h
        · rw [h]
          exact List.mem_append_left _ (List.mem_append_right _ (by simp))
        · exact List.mem_append_right _ (List.mem_append_left _ h)
  · intro a ha
    rcases List.mem_append.mp ha with h | h
    · exact hinv.sortedOK a h
    · rw [List.mem_singleton] at h
      subst h
      rw [happId]
      exact happ

theorem kout_of_terminal {DM : List (String × List String)} {AM : List (String × RApp)}
    (hctx : KCtx DM AM) {entries : List Entry} {sorted : List RApp}
    (hinv : KInv DM AM [] entries sorted) : KOut DM AM sorted := by
  have hemN : (sorted.map RApp.identifier).Nodup := by
    have h := hinv.nodup
    rwa [List.append_nil] at h
  refine
    { nodup := hemN, inKeys := ?_, ordered := hinv.ordered, appsLookup := hinv.sortedOK,
      complete := ?_ }
  · intro x hx
    exact hinv.inKeys x (List.mem_append_left _ hx)
  · intro k hk hdeps
    obtain ⟨e, he, heid⟩ := entry_of_key hinv.entriesEq hk
    have helook : lookupL DM e.id = some e.deps :=
      entry_lookup hctx.keysNodup hinv.entriesEq he
    rw [← heid] at hdeps ⊢
    rw [helook] at hdeps
    simp only [Option.getD_some] at hdeps
    have hdn : e.deps.Nodup := entry_deps_nodup hctx.depsNodup hinv.entriesEq he
    have hdeg : e.deg = 0 := by
      rw [hinv.degEq e he, countP_mem_eq_length hemN hdn hdeps]
      omega
    have h := hinv.degZero e he hdeg
    rwa [List.append_nil] at h

theorem kahn_master {DM : List (String × List String)} {AM : List (String × RApp)}
    (hctx : KCtx DM AM) :
    ∀ (fuel : Nat) (queue : List String) (entries : List Entry) (sorted : List RApp),
      KInv DM AM queue entries sorted →
      posCount entries + queue.length ≤ fuel →
      KOut DM AM (kahnLoopF AM fuel queue entries sorted) := by
  intro fuel
  induction fuel with
  | zero =>
    intro queue entries sorted hinv hfuel
    have hlen : queue.length = 0 := by omega
    have hq := List.length_eq_zero.mp hlen
    subst hq
    exact kout_of_terminal hctx hinv
  | succ fuel ih =>
    intro queue entries sorted hinv hfuel
    cases queue with
    | nil => exact kout_of_terminal hctx hinv
    | cons current rest =>
      obtain ⟨app, happ, hinv'⟩ := kinv_step hctx hinv
      have hstep1 : kahnLoopF AM (fuel+1) (current :: rest) entries sorted
          = kahnLoopF AM fuel (rest ++ newZeros current entries) (decEntries current entries)
            (match lookupL AM current with
              | some a => sorted ++ [a]
              | none => sorted) := rfl
      rw [hstep1, happ]
      apply ih _ _ _ hinv'
      have hm := dec_measure current entries
      simp only [List.length_append, List.length_cons] at hfuel ⊢
      omega

theorem kctx_of_apps (apps : List RApp) : KCtx (buildDeps apps) (buildAppMap apps) := by
  refine { keysEq := ?_, keysNodup := ?_, amIds := ?_, depsNodup := ?_ }
  · exact foldl_upsert_keys_congr (fun a => a) (fun a => refsOf a) apps [] [] rfl
  · exact foldl_upsert_keys_nodup (fun a => refsOf a) apps [] (by simp)
  · intro kv hkv
    rcases foldl_upsert_mem (fun a => a) apps [] kv hkv with h | ⟨a, _, rfl⟩
    · simp at h
    · rfl
  · intro kv hkv
    rcases foldl_upsert_mem (fun a => refsOf a) apps [] kv hkv with h | ⟨a, _, rfl⟩
    · simp at h
    · exact refsOf_nodup a

theorem kinv_init (apps : List RApp) :
    KInv (buildDeps apps) (buildAppMap apps)
      ((((buildDeps apps).map (fun kd => Entry.mk kd.1 kd.2 (kd.2.length : Int))).filter
          (fun e => e.deg == 0)).map (·.id))
      ((buildDeps apps).map (fun kd => Entry.mk kd.1 kd.2 (kd.2.length : Int)))
      [] := by
  set DM := buildDeps apps with hDM
  set entries := DM.map (fun kd => Entry.mk kd.1 kd.2 (kd.2.length : Int)) with hentries
  have hkeysN : (DM.map Prod.fst).Nodup :=
    foldl_upsert_keys_nodup (fun a => refsOf a) apps [] (by simp)
  have hEq : entries.map (fun e => (e.id, e.deps)) = DM := by
    rw [hentries, List.map_map]
    have : ((fun e : Entry => (e.id, e.deps)) ∘ fun kd : String × List String =>
        Entry.mk kd.1 kd.2 (kd.2.length : Int)) = fun kd => (kd.1, kd.2) := rfl
    rw [this]
    simp
  have hidsN : (entries.map Entry.id).Nodup := by
    rw [entries_ids_eq_keys hEq]; exact hkeysN
  have hqsub : ((entries.filter (fun e => e.deg == 0)).map (·.id)).Sublist
      (entries.map Entry.id) := List.Sublist.map _ (List.filter_sublist _)
  refine
    { entriesEq := hEq, degEq := ?_, nodup := ?_, inKeys := ?_, queueReady := ?_,
      ordered := ?_, degZero := ?_, sortedOK := ?_ }
  · intro e he
    rcases List.mem_map.mp he with ⟨kd, hkd, rfl⟩
    simp
  · simpa using hqsub.nodup hidsN
  · intro x hx
    simp only [List.map_nil, List.nil_append] at hx
    rw [← entries_ids_eq_keys hEq]
    exact hqsub.mem hx
  · intro q hq d hd
    rcases List.mem_map.mp hq with ⟨e, hef, rfl⟩
    rcases List.mem_filter.mp hef with ⟨he, hz⟩
    rcases List.mem_map.mp he with ⟨kd, hkd, rfl⟩
    have hzero : kd.2.length = 0 := by
      have := beq_iff_eq.mp hz
      simpa using this
    have hnil : kd.2 = [] := List.length_eq_zero.mp hzero
    have hlook : lookupL DM (Entry.mk kd.1 kd.2 (kd.2.length : Int)).id = some kd.2 := by
      apply lookupL_of_mem_nodup hkeysN
      simpa using hkd
    rw [hlook] at hd
    simp only [Option.getD_some, hnil] at hd
    simp at hd
  · intro i h
    simp at h
  · intro e he hz
    simp only [List.map_nil, List.nil_append]
    apply List.mem_map_of_mem
    apply List.mem_filter.mpr
    exact ⟨he, by simpa using hz⟩
  · intro a ha
    simp at ha

theorem sort_spec (apps : List RApp) :
    ∃ R : List RApp, KOut (buildDeps apps) (buildAppMap apps) R ∧
      sort_apps_by_dependencies apps = (if R.length = apps.length then R else apps) := by
  refine ⟨_, kahn_master (kctx_of_apps apps) _ _ _ _ (kinv_init apps) (le_refl _), rfl⟩

/-! ## Resolver corollaries for batches with unique identifiers -/

theorem buildDeps_of_nodup {apps : List RApp} (hnd : (apps.map RApp.identifier).Nodup) :
    buildDeps apps = apps.map (fun a => (a.identifier, refsOf a)) := by
  have := foldl_upsert_fresh (fun a => refsOf a) apps [] (by simpa using hnd)
  simpa using this

theorem buildAppMap_of_nodup {apps : List RApp} (hnd : (apps.map RApp.identifier).Nodup) :
    buildAppMap apps = apps.map (fun a => (a.identifier, a)) := by
  have := foldl_upsert_fresh (fun a => a) apps [] (by simpa using hnd)
  simpa using this

theorem buildDeps_keys_of_nodup {apps : List RApp} (hnd : (apps.map RApp.identifier).Nodup) :
    (buildDeps apps).map Prod.fst = apps.map RApp.identifier := by
  rw [buildDeps_of_nodup hnd, List.map_map]
  rfl

theorem lookupL_buildDeps {apps : List RApp} (hnd : (apps.map RApp.identifier).Nodup)
    {a : RApp} (ha : a ∈ apps) : lookupL (buildDeps apps) a.identifier = some (refsOf a) := by
  apply lookupL_of_mem_nodup (kctx_of_apps apps).keysNodup
  rw [buildDeps_of_nodup hnd]
  exact List.mem_map_of_mem _ ha

theorem lookupL_buildAppMap {apps : List RApp} (hnd : (apps.map RApp.identifier).Nodup)
    {a : RApp} (ha : a ∈ apps) : lookupL (buildAppMap apps) a.identifier = some a := by
  apply lookupL_of_mem_nodup (by rw [(kctx_of_apps apps).keysEq]; exact (kctx_of_apps apps).keysNodup)
  rw [buildAppMap_of_nodup hnd]
  exact List.mem_map_of_mem _ ha

theorem list_recon (AM : List (String × RApp)) :
    ∀ l : List RApp, (∀ a ∈ l, lookupL AM a.identifier = some a) →
      l = (l.map RApp.identifier).map (fun k => (lookupL AM k).getD (RApp.mk "" [])) := by
  intro l
  induction l with
  | nil => intro _; rfl
  | cons a rest ih =>
    intro h
    have ha := h a (by simp)
    simp only [List.map_cons]
    rw [ha]
    simp only [Option.getD_some]
    congr 1
    exact ih (fun b hb => h b (List.mem_cons_of_mem _ hb))

set_option maxHeartbeats 1000000 in
theorem sort_correct_main (apps : List RApp)
    (hnd : (apps.map RApp.identifier).Nodup)
    (hdang : ∀ a ∈ apps, ∀ r ∈ refsOf a, r ∈ apps.map RApp.identifier)
    (rank : String → Nat)
    (hrank : ∀ a ∈ apps, ∀ r ∈ refsOf a, rank r < rank a.identifier) :
    (sort_apps_by_dependencies apps).Perm apps ∧
      ∀ i j (hi : i < (sort_apps_by_dependencies apps).length)
        (hj : j < (sort_apps_by_dependencies apps).length),
        ((sort_apps_by_dependencies apps).get ⟨j, hj⟩).identifier
          ∈ refsOf ((sort_apps_by_dependencies apps).get ⟨i, hi⟩) → j < i := by
  obtain ⟨R, hout, hEqSort⟩ := sort_spec apps
  have hkeys : (buildDeps apps).map Prod.fst = apps.map RApp.identifier :=
    buildDeps_keys_of_nodup hnd
  -- every identifier gets emitted, by strong induction on its rank
  have hall : ∀ n, ∀ a ∈ apps, rank a.identifier < n → a.identifier ∈ R.map RApp.identifier := by
    intro n
    induction n with
    | zero => intro a _ h; omega
    | succ n ih =>
      intro a ha h
      apply hout.complete a.identifier (by rw [hkeys]; exact List.mem_map_of_mem _ ha)
      intro d hd
      rw [lookupL_buildDeps hnd ha] at hd
      simp only [Option.getD_some] at hd
      rcases List.mem_map.mp (hdang a ha d hd) with ⟨b, hb, hbd⟩
      have hlt := hrank a ha d hd
      have := ih b hb (by rw [hbd]; omega)
      rwa [hbd] at this
  have hsub : ∀ k ∈ apps.map RApp.identifier, k ∈ R.map RApp.identifier := by
    intro k hk
    rcases List.mem_map.mp hk with ⟨a, ha, rfl⟩
    exact hall (rank a.identifier + 1) a ha (by omega)
  have hsup : ∀ k ∈ R.map RApp.identifier, k ∈ apps.map RApp.identifier := by
    intro k hk
    have := hout.inKeys k hk
    rwa [hkeys] at this
  have happsN : (apps.map RApp.identifier).Nodup := hnd
  have hpermIds : (R.map RApp.identifier).Perm (apps.map RApp.identifier) :=
    (List.perm_ext_iff_of_nodup hout.nodup happsN).mpr (fun k => ⟨hsup k, hsub k⟩)
  have hlen : R.length = apps.length := by
    have h1 := hpermIds.length_eq
    simpa using h1
  have hsort : sort_apps_by_dependencies apps = R := by
    rw [hEqSort, if_pos hlen]
  -- reconstruct both lists from their identifier lists to transport the permutation
  have hreconR : R = (R.map RApp.identifier).map
      (fun k => (lookupL (buildAppMap apps) k).getD (RApp.mk "" [])) :=
    list_recon _ R hout.appsLookup
  have hreconA : apps = (apps.map RApp.identifier).map
      (fun k => (lookupL (buildAppMap apps) k).getD (RApp.mk "" [])) :=
    list_recon _ apps (fun a ha => lookupL_buildAppMap hnd ha)
  have hperm : R.Perm apps := by
    have h := hpermIds.map (fun k => (lookupL (buildAppMap apps) k).getD (RApp.mk "" []))
    rw [← hreconR, ← hreconA] at h
    exact h
  refine ⟨hsort ▸ hperm, ?_⟩
  rw [hsort]
  intro i j hi hj hmem
  -- the app at position i is in the batch, and its table entry is refsOf
  have hRi : R.get ⟨i, hi⟩ ∈ R := List.get_mem R i hi
  have hlookAM := hout.appsLookup _ hRi
  have hRiApps : R.get ⟨i, hi⟩ ∈ apps := hperm.mem_iff.mp hRi
  have hlookDM : lookupL (buildDeps apps) ((R.get ⟨i, hi⟩).identifier)
      = some (refsOf (R.get ⟨i, hi⟩)) := lookupL_buildDeps hnd hRiApps
  have hgetIds : (R.map RApp.identifier).get ⟨i, by simpa using hi⟩
      = (R.get ⟨i, hi⟩).identifier := by
    simp
  have hordered := hout.ordered i (by simpa using hi)
  rw [hgetIds, hlookDM] at hordered
  simp only [Option.getD_some] at hordered
  have hjmem : (R.get ⟨j, hj⟩).identifier ∈ (R.map RApp.identifier).take i :=
    hordered _ hmem
  rcases mem_take_index hjmem with ⟨j', hj', hj'i, hj'eq⟩
  have hjeq : (R.map RApp.identifier).get ⟨j, by simpa using hj⟩
      = (R.get ⟨j, hj⟩).identifier := by
    simp
  have hfin : (⟨j', hj'⟩ : Fin (R.map RApp.identifier).length)
      = ⟨j, by simpa using hj⟩ := by
    apply (List.Nodup.get_inj_iff hout.nodup).mp
    rw [hj'eq, hjeq]
  have hjj : j' = j := by simpa using congrArg Fin.val hfin
  omega

theorem ordered_blocked {DM : List (String × List String)} {E : List String}
    (hord : OrderOK DM E) (S : List String)
    (hcl : ∀ s ∈ S, ∃ d, d ∈ (lookupL DM s).getD [] ∧ d ∈ S) :
    ∀ s ∈ S, s ∉ E := by
  intro s hs hsE
  classical
  have hex : ∃ i, ∃ h : i < E.length, E.get ⟨i, h⟩ ∈ S := by
    rcases List.mem_iff_get.mp hsE with ⟨⟨i, h⟩, hg⟩
    exact ⟨i, h, by rwa [hg]⟩
  obtain ⟨hi, hiS⟩ := Nat.find_spec hex
  rcases hcl _ hiS with ⟨d, hd, hdS⟩
  have hdmem := hord (Nat.find hex) hi d hd
  rcases mem_take_index hdmem with ⟨j, hj, hji, hjeq⟩
  exact Nat.find_min hex hji ⟨hj, by rwa [hjeq]⟩

theorem edgeB_spec {apps : List RApp} {a b : String} (h : edgeB apps a b = true) :
    ∃ app ∈ apps, app.identifier = a ∧ b ∈ refsOf app := by
  rcases List.any_eq_true.mp h with ⟨app, happ, hcond⟩
  rcases (by simpa using hcond : app.identifier = a ∧ b ∈ refsOf app) with ⟨h1, h2⟩
  exact ⟨app, happ, h1, h2⟩

theorem chainB_get {apps : List RApp} : ∀ (l : List String), chainB apps l = true →
    ∀ i (h : i + 1 < l.length),
      edgeB apps (l.get ⟨i, Nat.lt_of_succ_lt h⟩) (l.get ⟨i + 1, h⟩) = true := by
  intro l
  induction l with
  | nil => intro _ i h; simp at h
  | cons a rest ih =>
    intro hch i h
    cases rest with
    | nil => simp at h
    | cons b rest2 =>
      have hch' : edgeB apps a b = true ∧ chainB apps (b :: rest2) = true := by
        simpa [chainB, Bool.and_eq_true] using hch
      cases i with
      | zero => simpa using hch'.1
      | succ i =>
        have h' : i + 1 < (b :: rest2).length := by simpa using h
        have := ih hch'.2 i h'
        simpa using this

theorem getLastD_mem : ∀ (l : List String), l ≠ [] → ∀ d, l.getLastD d ∈ l := by
  intro l
  induction l with
  | nil => intro h; simp at h
  | cons a rest ih =>
    intro _ d
    rw [List.getLastD_cons]
    cases hr : rest with
    | nil => simp [List.getLastD_nil]
    | cons b rest2 =>
      subst hr
      exact List.mem_cons_of_mem _ (ih (by simp) a)

theorem headD_mem : ∀ (l : List String), l ≠ [] → l.headD "" ∈ l := by
  intro l h
  cases l with
  | nil => simp at h
  | cons a rest => simp

theorem get_pred_eq_getLastD : ∀ (l : List String) (hi : l.length - 1 < l.length) (d : String),
    l.get ⟨l.length - 1, hi⟩ = l.getLastD d := by
  intro l
  induction l with
  | nil => intro hi; simp at hi
  | cons a rest ih =>
    intro hi d
    rw [List.getLastD_cons]
    cases rest with
    | nil => simp [List.getLastD_nil]
    | cons b rest2 =>
      have hlen : (a :: b :: rest2).length - 1 = (b :: rest2).length - 1 + 1 := by
        simp
      have hi2 : (b :: rest2).length - 1 < (b :: rest2).length := by simp
      have hg : (a :: b :: rest2).get ⟨(a :: b :: rest2).length - 1, hi⟩
          = (b :: rest2).get ⟨(b :: rest2).length - 1, hi2⟩ := by
        have hfin : (⟨(a :: b :: rest2).length - 1, hi⟩ : Fin (a :: b :: rest2).length)
            = ⟨(b :: rest2).length - 1 + 1, by simp⟩ := Fin.ext (by simp)
        rw [hfin, List.get_cons_succ]
      rw [hg, ih hi2 a]

theorem cycle_closure {apps : List RApp} {l : List String} (hcyc : IsCycle apps l) :
    ∀ s ∈ l, ∃ t ∈ l, edgeB apps s t = true := by
  obtain ⟨hne, hch, hwrap⟩ := hcyc
  intro s hs
  rcases List.mem_iff_get.mp hs with ⟨⟨i, hi⟩, hg⟩
  by_cases hlast : i + 1 < l.length
  · refine ⟨l.get ⟨i + 1, hlast⟩, List.get_mem _ _ _, ?_⟩
    have := chainB_get l hch i hlast
    have hfin : (⟨i, Nat.lt_of_succ_lt hlast⟩ : Fin l.length) = ⟨i, hi⟩ := rfl
    rw [hfin] at this
    rw [← hg]
    exact this
  · have hieq : i = l.length - 1 := by omega
    have hsL : s = l.getLastD "" := by
      rw [← hg]
      have hfin : (⟨i, hi⟩ : Fin l.length) = ⟨l.length - 1, by omega⟩ :=
        Fin.ext (by simpa using hieq)
      rw [hfin]
      exact get_pred_eq_getLastD l (by omega) ""
    refine ⟨l.headD "", headD_mem l hne, ?_⟩
    rw [hsL]
    exact hwrap

theorem sort_eq_of_unemitted {apps : List RApp} {R : List RApp}
    (hout : KOut (buildDeps apps) (buildAppMap apps) R)
    (hEq : sort_apps_by_dependencies apps = if R.length = apps.length then R else apps)
    (hnd : (apps.map RApp.identifier).Nodup)
    {x : String} (hx : x ∈ apps.map RApp.identifier) (hxR : x ∉ R.map RApp.identifier) :
    sort_apps_by_dependencies apps = apps := by
  have hkeys : (buildDeps apps).map Prod.fst = apps.map RApp.identifier :=
    buildDeps_keys_of_nodup hnd
  have hsub : ∀ k ∈ R.map RApp.identifier, k ∈ apps.map RApp.identifier := by
    intro k hk
    have := hout.inKeys k hk
    rwa [hkeys] at this
  have hlt : (R.map RApp.identifier).length < (apps.map RApp.identifier).length :=
    length_lt_of_missing hout.nodup hnd hsub hx hxR
  rw [hEq, if_neg]
  intro hcon
  simp only [List.length_map] at hlt
  omega

theorem sort_fallback_of_cycle (apps : List RApp)
    (hnd : (apps.map RApp.identifier).Nodup)
    {l : List String} (hcyc : IsCycle apps l) :
    sort_apps_by_dependencies apps = apps := by
  obtain ⟨R, hout, hEq⟩ := sort_spec apps
  have hids : ∀ s ∈ l, s ∈ apps.map RApp.identifier := by
    intro s hs
    rcases cycle_closure hcyc s hs with ⟨t, ht, hedge⟩
    rcases edgeB_spec hedge with ⟨app, happ, rfl, _⟩
    exact List.mem_map_of_mem _ happ
  have hcl : ∀ s ∈ l, ∃ d, d ∈ (lookupL (buildDeps apps) s).getD [] ∧ d ∈ l := by
    intro s hs
    rcases cycle_closure hcyc s hs with ⟨t, ht, hedge⟩
    rcases edgeB_spec hedge with ⟨app, happ, hid, htref⟩
    refine ⟨t, ?_, ht⟩
    rw [← hid, lookupL_buildDeps hnd happ]
    simpa using htref
  have hblocked := ordered_blocked hout.ordered l hcl
  obtain ⟨s, hs⟩ := List.exists_mem_of_ne_nil l hcyc.1
  exact sort_eq_of_unemitted hout hEq hnd (hids s hs) (hblocked s hs)

theorem sort_fallback_of_dangling (apps : List RApp)
    (hnd : (apps.map RApp.identifier).Nodup)
    {a : RApp} (ha : a ∈ apps) {r : String} (hr : r ∈ refsOf a)
    (hdang : r ∉ apps.map RApp.identifier) :
    sort_apps_by_dependencies apps = apps := by
  obtain ⟨R, hout, hEq⟩ := sort_spec apps
  have hnotem : a.identifier ∉ R.map RApp.identifier := by
    intro hm
    rcases List.mem_iff_get.mp hm with ⟨⟨i, hi⟩, hg⟩
    have hord := hout.ordered i hi
    rw [hg, lookupL_buildDeps hnd ha] at hord
    simp only [Option.getD_some] at hord
    have hrmem := (List.take_sublist i _).mem (hord r hr)
    have hrk := hout.inKeys r hrmem
    rw [buildDeps_keys_of_nodup hnd] at hrk
    exact hdang hrk
  exact sort_eq_of_unemitted hout hEq hnd (List.mem_map_of_mem _ ha) hnotem

theorem kout_short_of_dup {apps : List RApp} {R : List RApp}
    (hdup : ¬ (apps.map RApp.identifier).Nodup)
    (hout : KOut (buildDeps apps) (buildAppMap apps) R) :
    R.length < apps.length := by
  have hsubkeys : ∀ x ∈ (buildDeps apps).map Prod.fst, x ∈ apps.map RApp.identifier := by
    intro x hx
    rcases List.mem_map.mp hx with ⟨kv, hkv, rfl⟩
    rcases foldl_upsert_mem (fun a => refsOf a) apps [] kv hkv with h | ⟨a, ha, rfl⟩
    · simp at h
    · exact List.mem_map_of_mem _ ha
  have hRsub : ∀ x ∈ R.map RApp.identifier, x ∈ apps.map RApp.identifier :=
    fun x hx => hsubkeys x (hout.inKeys x hx)
  have hdl : (apps.map RApp.identifier).dedup.length < (apps.map RApp.identifier).length := by
    have hsub := List.dedup_sublist (apps.map RApp.identifier)
    rcases Nat.lt_or_ge (apps.map RApp.identifier).dedup.length
        (apps.map RApp.identifier).length with h | h
    · exact h
    · exfalso
      have heq := hsub.eq_of_length (Nat.le_antisymm hsub.length_le h)
      exact hdup (heq ▸ List.nodup_dedup (apps.map RApp.identifier))
  have h1 : (R.map RApp.identifier).length
      = (R.map RApp.identifier).toFinset.card :=
    (List.toFinset_card_of_nodup hout.nodup).symm
  have h2 : (R.map RApp.identifier).toFinset.card
      ≤ (apps.map RApp.identifier).toFinset.card := by
    apply Finset.card_le_card
    intro x hx
    simp only [List.mem_toFinset] at hx ⊢
    exact hRsub x hx
  have h3 : (apps.map RApp.identifier).toFinset.card
      = (apps.map RApp.identifier).dedup.length := List.card_toFinset _
  have h4 := hdl
  simp only [List.length_map] at h1 h4 ⊢
  omega

/-! ## Claim theorems for the resolver -/

/-- C1: for every batch (unique identifiers, per the batch invariant) whose
cross-reference graph has no cycles (witnessed by a rank function, the
standard finite-graph formulation of acyclicity) and no dangling references,
`sort_apps_by_dependencies` returns a permutation of the input in which every
definition appears strictly after every definition it references through an
`applookup` field. -/
theorem C1_resolver_correct (apps : List RApp)
    (hnd : (apps.map RApp.identifier).Nodup)
    (hdang : ∀ a ∈ apps, ∀ r ∈ refsOf a, r ∈ apps.map RApp.identifier)
    (hacyc : ∃ rank : String → Nat, ∀ a ∈ apps, ∀ r ∈ refsOf a, rank r < rank a.identifier) :
    (sort_apps_by_dependencies apps).Perm apps ∧
      ∀ i j (hi : i < (sort_apps_by_dependencies apps).length)
        (hj : j < (sort_apps_by_dependencies apps).length),
        ((sort_apps_by_dependencies apps).get ⟨j, hj⟩).identifier
          ∈ refsOf ((sort_apps_by_dependencies apps).get ⟨i, hi⟩) → j < i := by
  obtain ⟨rank, hrank⟩ := hacyc
  exact sort_correct_main apps hnd hdang rank hrank

/-- Witness for C1 at the concrete two-app batch `[teams, employees]`:
`teams` references `employees`, the hypotheses hold, and the conclusion is
obtained by applying `C1_resolver_correct`. -/
theorem C1_resolver_correct_witness :
    (sort_apps_by_dependencies [teamsR, empR]).Perm [teamsR, empR] ∧
      ∀ i j (hi : i < (sort_apps_by_dependencies [teamsR, empR]).length)
        (hj : j < (sort_apps_by_dependencies [teamsR, empR]).length),
        ((sort_apps_by_dependencies [teamsR, empR]).get ⟨j, hj⟩).identifier
          ∈ refsOf ((sort_apps_by_dependencies [teamsR, empR]).get ⟨i, hi⟩) → j < i :=
  C1_resolver_correct [teamsR, empR] (by decide) (by decide)
    ⟨fun s => if s = "employees" then 0 else 1, by decide⟩

/-- C2 counterexample: in the batch `[teams, employees]` where `teams`
references `employees` and `employees` carries a true self-reference, the
code counts the self-reference as a dependency edge, the self-referencing
node is never emitted, and the resolver falls back to the original input
sequence — in which `teams` appears before the definition it references.
This refutes the claim that a self-reference adds no edge and that such a
batch still gets a full dependency-respecting order. -/
theorem C2_self_reference_cx :
    sort_apps_by_dependencies [teamsR, selfEmpR] = [teamsR, selfEmpR] ∧
      "employees" ∈ refsOf teamsR ∧ teamsR.identifier = "teams" ∧
      selfEmpR.identifier = "employees" ∧ selfEmpR.identifier ∈ refsOf selfEmpR := by
  decide

/-- C2 amended: a cross-reference field whose target is the definition's own
identifier does add a dependency edge; since that edge can never be
discharged, any batch (with unique identifiers) containing a true
self-reference makes the resolver fall back to the original input sequence. -/
theorem C2_self_reference_amended (apps : List RApp)
    (hnd : (apps.map RApp.identifier).Nodup)
    (h : ∃ a ∈ apps, a.identifier ∈ refsOf a) :
    sort_apps_by_dependencies apps = apps := by
  rcases h with ⟨a, ha, hself⟩
  apply sort_fallback_of_cycle apps hnd (l := [a.identifier])
  refine ⟨by simp, by simp [chainB], ?_⟩
  simp only [List.getLastD_cons, List.getLastD_nil, List.headD_cons]
  apply List.any_eq_true.mpr
  exact ⟨a, ha, by simp [hself]⟩

/-- Witness for C2's amended statement at the concrete self-referencing
batch. -/
theorem C2_self_reference_amended_witness :
    sort_apps_by_dependencies [teamsR, selfEmpR] = [teamsR, selfEmpR] :=
  C2_self_reference_amended [teamsR, selfEmpR] (by decide) ⟨selfEmpR, by decide, by decide⟩

/-- C3: for every batch (unique identifiers) containing a dependency cycle or
a cross-reference to an identifier absent from the batch, the resolver
returns exactly the original input sequence. -/
theorem C3_resolver_fallback (apps : List RApp)
    (hnd : (apps.map RApp.identifier).Nodup)
    (h : (∃ l, IsCycle apps l) ∨ ∃ a ∈ apps, ∃ r ∈ refsOf a, r ∉ apps.map RApp.identifier) :
    sort_apps_by_dependencies apps = apps := by
  rcases h with ⟨l, hcyc⟩ | ⟨a, ha, r, hr, hdang⟩
  · exact sort_fallback_of_cycle apps hnd hcyc
  · exact sort_fallback_of_dangling apps hnd ha hr hdang

/-- Witness for C3 at the concrete two-node cycle `a → b → a`. -/
theorem C3_resolver_fallback_witness :
    sort_apps_by_dependencies [cycAR, cycBR] = [cycAR, cycBR] :=
  C3_resolver_fallback [cycAR, cycBR] (by decide)
    (Or.inl ⟨["a", "b"], ⟨by decide, by decide, by decide⟩⟩)

/-- C10: a batch containing two definitions with the same identifier makes
the later duplicate overwrite the earlier one in the internal identifier
maps, so the emitted list is strictly shorter than the input, the
length-equality fallback triggers, and the resolver returns the original
input sequence unchanged, duplicates included (no exception is raised: the
embedded function is total). -/
theorem C10_duplicate_identifiers (apps : List RApp)
    (hdup : ¬ (apps.map RApp.identifier).Nodup) :
    sort_apps_by_dependencies apps = apps ∧
      ∃ R : List RApp, R.length < apps.length ∧
        sort_apps_by_dependencies apps = (if R.length = apps.length then R else apps) := by
  obtain ⟨R, hout, hEq⟩ := sort_spec apps
  have hlt := kout_short_of_dup hdup hout
  refine ⟨?_, R, hlt, hEq⟩
  rw [hEq, if_neg (by omega)]

/-- Witness for C10 at a concrete batch with a duplicated identifier. -/
theorem C10_duplicate_identifiers_witness :
    sort_apps_by_dependencies [empR, selfEmpR] = [empR, selfEmpR] ∧
      ∃ R : List RApp, R.length < ([empR, selfEmpR] : List RApp).length ∧
        sort_apps_by_dependencies [empR, selfEmpR]
          = (if R.length = ([empR, selfEmpR] : List RApp).length then R else [empR, selfEmpR]) :=
  C10_duplicate_identifiers [empR, selfEmpR] (by decide)

/-! ## Generator lemmas -/

theorem fieldLine_mem_typesLines (apps : List (String × GApp)) {key : String} {app : GApp}
    {k : String} {c : GCtrl} (happ : (key, app) ∈ apps) (hc : (k, c) ∈ app.controls) :
    fieldLine (appIdToName apps) k c ∈ typesLines apps := by
  have h1 : fieldLine (appIdToName apps) k c
      ∈ app.controls.map (fun kc => fieldLine (appIdToName apps) kc.1 kc.2) :=
    List.mem_map.mpr ⟨(k, c), hc, rfl⟩
  have h2 : fieldLine (appIdToName apps) k c ∈ interfaceLines (appIdToName apps) key app := by
    unfold interfaceLines
    exact List.mem_append_left _ (List.mem_append_right _ h1)
  have h3 : interfaceLines (appIdToName apps) key app
      ∈ apps.map (fun kv => interfaceLines (appIdToName apps) kv.1 kv.2) :=
    List.mem_map.mpr ⟨(key, app), happ, rfl⟩
  have h4 : fieldLine (appIdToName apps) k c
      ∈ (apps.map (fun kv => interfaceLines (appIdToName apps) kv.1 kv.2)).flatten :=
    List.mem_flatten.mpr ⟨_, h3, h2⟩
  unfold typesLines
  exact List.mem_append_left _ (List.mem_append_left _ (List.mem_append_left _
    (List.mem_append_right _ h4)))

/-- C9: every field of every definition in the batch is emitted inside the
nested fields object as an optional property (with `?:`), and the `required`
flag of the FieldSpec never affects the generated line. -/
theorem C9_fields_optional (apps : List (String × GApp)) (key : String) (app : GApp)
    (k : String) (c : GCtrl) (happ : (key, app) ∈ apps) (hc : (k, c) ∈ app.controls) :
    fieldLine (appIdToName apps) k c ∈ typesLines apps ∧
    fieldLine (appIdToName apps) k c
      = "    " ++ k ++ "?: " ++ map_type c ++ ";" ++ smartComment (appIdToName apps) c ∧
    ∀ b : Option Bool,
      fieldLine (appIdToName apps) k { c with required := b }
        = fieldLine (appIdToName apps) k c := by
  refine ⟨fieldLine_mem_typesLines apps happ hc, rfl, ?_⟩
  intro b
  rfl

/-- Witness for C9 at the `lead` field of the end-to-end metadata. -/
theorem C9_fields_optional_witness :
    fieldLine (appIdToName meta8) "lead" leadCtrl ∈ typesLines meta8 ∧
    fieldLine (appIdToName meta8) "lead" leadCtrl
      = "    " ++ "lead" ++ "?: " ++ map_type leadCtrl ++ ";"
        ++ smartComment (appIdToName meta8) leadCtrl ∧
    ∀ b : Option Bool,
      fieldLine (appIdToName meta8) "lead" { leadCtrl with required := b }
        = fieldLine (appIdToName meta8) "lead" leadCtrl :=
  C9_fields_optional meta8 "teams" teamsG "lead" leadCtrl (by decide) (by decide)

/-- C7: for every cross-reference (`applookup/select`) field carrying a
`lookup_app` URL, the emitted field line is present in the types document;
if the URL's trailing path segment reverse-resolves in the identifier-to-
type-name map built once over the whole batch, the inline comment names the
target's generated PascalCase type name, and if it does not reverse-resolve
the comment degrades to the generic `UnknownApp` reference note — generation
never fails (the embedded generator is total). -/
theorem C7_applookup_comment (apps : List (String × GApp)) (key : String) (app : GApp)
    (k : String) (c : GCtrl) (u : String)
    (happ : (key, app) ∈ apps) (hc : (k, c) ∈ app.controls)
    (hft : c.fulltype = some "applookup/select") (hla : c.lookup_app = some u) :
    fieldLine (appIdToName apps) k c ∈ typesLines apps ∧
    (∀ nm, lookupL (appIdToName apps) ((pySplitSlash u).getLastD "") = some nm →
      fieldLine (appIdToName apps) k c
        = "    " ++ k ++ "?: " ++ "string" ++ ";"
          ++ (" \x2f\x2f applookup -> URL zu \x27" ++ nm ++ "\x27 Record")) ∧
    (lookupL (appIdToName apps) ((pySplitSlash u).getLastD "") = none →
      fieldLine (appIdToName apps) k c
        = "    " ++ k ++ "?: " ++ "string" ++ ";"
          ++ (" \x2f\x2f applookup -> URL zu \x27" ++ "UnknownApp" ++ "\x27 Record")) := by
  obtain ⟨ft, ld, la, rq⟩ := c
  have hft' : ft = some "applookup/select" := hft
  have hla' : la = some u := hla
  subst hft'
  subst hla'
  refine ⟨fieldLine_mem_typesLines apps happ hc, ?_, ?_⟩
  · intro nm hnm
    show "    " ++ k ++ "?: "
        ++ map_type ⟨some "applookup/select", ld, some u, rq⟩ ++ ";"
        ++ smartComment (appIdToName apps) ⟨some "applookup/select", ld, some u, rq⟩ = _
    rw [show map_type ⟨some "applookup/select", ld, some u, rq⟩ = "string" from rfl]
    rw [show smartComment (appIdToName apps) ⟨some "applookup/select", ld, some u, rq⟩
        = " \x2f\x2f applookup -> URL zu \x27"
          ++ (lookupL (appIdToName apps) ((pySplitSlash u).getLastD "")).getD "UnknownApp"
          ++ "\x27 Record" from rfl]
    rw [hnm]
    rfl
  · intro hnone
    show "    " ++ k ++ "?: "
        ++ map_type ⟨some "applookup/select", ld, some u, rq⟩ ++ ";"
        ++ smartComment (appIdToName apps) ⟨some "applookup/select", ld, some u, rq⟩ = _
    rw [show map_type ⟨some "applookup/select", ld, some u, rq⟩ = "string" from rfl]
    rw [show smartComment (appIdToName apps) ⟨some "applookup/select", ld, some u, rq⟩
        = " \x2f\x2f applookup -> URL zu \x27"
          ++ (lookupL (appIdToName apps) ((pySplitSlash u).getLastD "")).getD "UnknownApp"
          ++ "\x27 Record" from rfl]
    rw [hnone]
    rfl

/-- Witness for C7 at the end-to-end metadata: the `lead` field's target URL
ends in `E1`, which reverse-resolves to the generated name `Employees`. -/
theorem C7_applookup_comment_witness :
    fieldLine (appIdToName meta8) "lead" leadCtrl
      = "    " ++ "lead" ++ "?: " ++ "string" ++ ";"
        ++ (" \x2f\x2f applookup -> URL zu \x27" ++ "Employees" ++ "\x27 Record") :=
  (C7_applookup_comment meta8 "teams" teamsG "lead" leadCtrl
      "https:\x2f\x2fmy.living-apps.de\x2frest\x2fapps\x2fE1"
      (by decide) (by decide) rfl rfl).2.1 "Employees" (by decide)

/-- C6: the field-kind-to-emitted-type mapping is a total function on
control dictionaries (the embedded `map_type` is total by construction):
`number` maps to `number`, `bool` to `boolean`, the two date kinds to
`string`, `lookup/select` with a nonempty enumeration to the closed union of
the quoted enumeration keys, `lookup/select` with an empty or absent
enumeration to `string`, and a missing or unrecognized kind to `string`. -/
theorem C6_map_type_total (c : GCtrl) :
    (c.fulltype = some "number" → map_type c = "number") ∧
    (c.fulltype = some "bool" → map_type c = "boolean") ∧
    (c.fulltype = some "date/date" → map_type c = "string") ∧
    (c.fulltype = some "date/datetimeminute" → map_type c = "string") ∧
    (∀ ks, c.fulltype = some "lookup/select" → c.lookup_data = some ks → ks ≠ [] →
      map_type c = String.intercalate " | " (ks.map (fun k => "\x27" ++ k ++ "\x27"))) ∧
    (c.fulltype = some "lookup/select" → c.lookup_data = some [] → map_type c = "string") ∧
    (c.fulltype = some "lookup/select" → c.lookup_data = none → map_type c = "string") ∧
    (c.fulltype = none → map_type c = "string") ∧
    (∀ ft, c.fulltype = some ft →
      ft ∉ (["number", "bool", "date/date", "date/datetimeminute", "lookup/select"] : List String) →
      map_type c = "string") := by
  obtain ⟨ft, ld, la, rq⟩ := c
  refine ⟨?_, ?_, ?_, ?_, ?_, ?_, ?_, ?_, ?_⟩
  · intro h
    have : ft = some "number" := h
    subst this
    rfl
  · intro h
    have : ft = some "bool" := h
    subst this
    rfl
  · intro h
    have : ft = some "date/date" := h
    subst this
    rfl
  · intro h
    have : ft = some "date/datetimeminute" := h
    subst this
    rfl
  · intro ks h hld hne
    have h1 : ft = some "lookup/select" := h
    have h2 : ld = some ks := hld
    subst h1
    subst h2
    show map_type ⟨some "lookup/select", some ks, la, rq⟩ = _
    unfold map_type
    simp only [Option.getD_some, Option.isSome_some, and_true, if_neg, if_pos]
    rw [if_neg (by decide : ¬ ("lookup/select" : String) = "bool"),
      if_neg (by decide : ¬ (("lookup/select" : String) = "date/date" ∨
        ("lookup/select" : String) = "date/datetimeminute")),
      if_neg (show ¬ ((List.map (fun k => "\x27" ++ k ++ "\x27") ks).isEmpty = true) by
        simpa using hne),
      if_neg (by decide : ¬ ("lookup/select" : String) = "number")]
  · intro h hld
    have h1 : ft = some "lookup/select" := h
    have h2 : ld = some [] := hld
    subst h1
    subst h2
    rfl
  · intro h hld
    have h1 : ft = some "lookup/select" := h
    have h2 : ld = none := hld
    subst h1
    subst h2
    rfl
  · intro h
    have : ft = none := h
    subst this
    rfl
  · intro ft' h hnot
    have h1 : ft = some ft' := h
    subst h1
    simp only [List.mem_cons, List.mem_singleton, not_or] at hnot
    obtain ⟨hn1, hn2, hn3, hn4, hn5, -⟩ := hnot
    show map_type ⟨some ft', ld, la, rq⟩ = "string"
    unfold map_type
    simp only [Option.getD_some]
    rw [if_neg hn1, if_neg hn2, if_neg (by simp [hn3, hn4]),
      if_neg (by simp [hn5] : ¬ (ft' = "lookup/select" ∧ ld.isSome = true))]

/-- Witness for C6: the union branch and the unrecognized-kind branch at
concrete inputs, obtained by applying `C6_map_type_total`. -/
theorem C6_map_type_total_witness :
    map_type ⟨some "lookup/select", some ["red", "green"], none, none⟩
      = String.intercalate " | " (["red", "green"].map (fun k => "\x27" ++ k ++ "\x27")) ∧
    map_type ⟨some "weird/kind", none, none, none⟩ = "string" :=
  ⟨(C6_map_type_total _).2.2.2.2.1 ["red", "green"] rfl rfl (by decide),
   (C6_map_type_total _).2.2.2.2.2.2.2.2 "weird/kind" rfl (by decide)⟩

theorem mem_collapseAux : ∀ (b : Bool) (l : List Char) (c : Char),
    c ∈ collapseAux b l → c ∈ l := by
  intro b l
  induction l generalizing b with
  | nil => intro c h; simp [collapseAux] at h
  | cons a cs ih =>
    intro c h
    by_cases ha : a = '_'
    · subst ha
      rw [show collapseAux b ('_' :: cs) = (if b then collapseAux true cs
          else '_' :: collapseAux true cs) from by cases b <;> simp [collapseAux]] at h
      cases b with
      | true =>
        simp only [if_pos] at h
        exact List.mem_cons_of_mem _ (ih true c h)
      | false =>
        simp only [Bool.false_eq_true, if_neg, not_false_eq_true] at h
        rcases List.mem_cons.mp h with rfl | h2
        · simp
        · exact List.mem_cons_of_mem _ (ih true c h2)
    · rw [show collapseAux b (a :: cs) = a :: collapseAux false cs from by
        simp [collapseAux, ha]] at h
      rcases List.mem_cons.mp h with rfl | h2
      · simp
      · exact List.mem_cons_of_mem _ (ih false c h2)

/-- C5 counterexample: the constant-name transform deletes `'&'` (replaces
it with the empty string), it does not turn it into an underscore: the
identifier `a&b` yields the lookup-table key `AB`, not `A_B`. -/
theorem C5_ampersand_cx : constName "a&b" = "AB" ∧ constName "a&b" ≠ "A_B" := by
  decide

/-- C5 amended: the constant-name transform uppercases the identifier,
replaces `'-'` and `' '` with `'_'`, deletes every `'&'`, and collapses
consecutive underscores to one; in particular `a--b  c` maps to `A_B_C`, and
for every identifier no `'&'` survives into the lookup-table key. -/
theorem C5_const_name_amended :
    constName "a--b  c" = "A_B_C" ∧ ∀ k : String, '&' ∉ (constName k).data := by
  refine ⟨by decide, ?_⟩
  intro k hmem
  have h2 := mem_collapseAux false _ '&' hmem
  rcases List.mem_map.mp h2 with ⟨c, hc, hcm⟩
  have hc2 : c = '&' := by
    by_cases h : c = ' '
    · rw [if_pos h] at hcm
      exact absurd hcm (by decide)
    · rwa [if_neg h] at hcm
  subst hc2
  have h3 := List.mem_filter.mp hc
  simp at h3

/-- C8: the end-to-end scenario.  The resolver orders `employees` before
`teams`; the generated lookup table contains `EMPLOYEES: 'E1'` and
`TEAMS: 'T1'`; the generated service exposes all five `Employee` accessors
and all five `Team` accessors; and the method names obey the general
singularization rule (a PascalCase name ending in `s` drops the trailing
`s`, any other name gets the suffix `Entry`). -/
theorem C8_end_to_end :
    sort_apps_by_dependencies [teamsR, empR] = [empR, teamsR] ∧
    "  EMPLOYEES: \x27E1\x27," ∈ typesLines meta8 ∧
    "  TEAMS: \x27T1\x27," ∈ typesLines meta8 ∧
    "  static async getEmployees(): Promise<Employees[]> \x7b" ∈ serviceLines meta8 ∧
    "  static async getEmployee(id: string): Promise<Employees | undefined> \x7b"
      ∈ serviceLines meta8 ∧
    "  static async createEmployee(fields: Employees[\x27fields\x27]) \x7b"
      ∈ serviceLines meta8 ∧
    "  static async updateEmployee(id: string, fields: Partial<Employees[\x27fields\x27]>) \x7b"
      ∈ serviceLines meta8 ∧
    "  static async deleteEmployee(id: string) \x7b" ∈ serviceLines meta8 ∧
    "  static async getTeams(): Promise<Teams[]> \x7b" ∈ serviceLines meta8 ∧
    "  static async getTeam(id: string): Promise<Teams | undefined> \x7b"
      ∈ serviceLines meta8 ∧
    "  static async createTeam(fields: Teams[\x27fields\x27]) \x7b" ∈ serviceLines meta8 ∧
    "  static async updateTeam(id: string, fields: Partial<Teams[\x27fields\x27]>) \x7b"
      ∈ serviceLines meta8 ∧
    "  static async deleteTeam(id: string) \x7b" ∈ serviceLines meta8 ∧
    (∀ nm : String, nm.data.getLastD ' ' = 's' →
      singularName nm = String.mk nm.data.dropLast) ∧
    (∀ nm : String, nm.data.getLastD ' ' ≠ 's' → singularName nm = nm ++ "Entry") := by
  refine ⟨by decide, by decide, by decide, by decide, by decide, by decide, by decide,
    by decide, by decide, by decide, by decide, by decide, by decide, ?_, ?_⟩
  · intro nm h
    unfold singularName
    rw [if_pos h]
  · intro nm h
    unfold singularName
    rw [if_neg h]

/-- Witness for C8's general singularization rules at concrete type names,
obtained by applying `C8_end_to_end`. -/
theorem C8_end_to_end_witness :
    singularName "Employees" = String.mk "Employees".data.dropLast ∧
    singularName "Lead" = "Lead" ++ "Entry" := by
  obtain ⟨-, -, -, -, -, -, -, -, -, -, -, -, -, hrule1, hrule2⟩ := C8_end_to_end
  exact ⟨hrule1 "Employees" (by decide), hrule2 "Lead" (by decide)⟩

/-! ## PascalCase transform: character classes and the double-application law -/

theorem char_toNat_ofNat {n : Nat} (h : n.isValidChar) : (Char.ofNat n).toNat = n := by
  unfold Char.ofNat
  rw [dif_pos h]
  rfl

theorem isAlnumA_iff (c : Char) : isAlnumA c = true ↔
    (97 ≤ c.toNat ∧ c.toNat ≤ 122) ∨ (65 ≤ c.toNat ∧ c.toNat ≤ 90) ∨
    (48 ≤ c.toNat ∧ c.toNat ≤ 57) := by
  unfold isAlnumA
  simp only [Bool.or_eq_true, Bool.and_eq_true, decide_eq_true_eq]
  rw [or_assoc]
  exact Iff.rfl

theorem isAlnumA_toUpper {c : Char} (h : isAlnumA c = true) : isAlnumA c.toUpper = true := by
  unfold Char.toUpper
  by_cases hr : c.toNat ≥ 97 ∧ c.toNat ≤ 122
  · rw [if_pos hr, isAlnumA_iff]
    have hv : (c.toNat - 32).isValidChar := Or.inl (by omega)
    rw [char_toNat_ofNat hv]
    omega
  · rw [if_neg hr]
    exact h

theorem isAlnumA_toLower {c : Char} (h : isAlnumA c = true) : isAlnumA c.toLower = true := by
  unfold Char.toLower
  by_cases hr : c.toNat ≥ 65 ∧ c.toNat ≤ 90
  · rw [if_pos hr, isAlnumA_iff]
    have hv : (c.toNat + 32).isValidChar := Or.inl (by omega)
    rw [char_toNat_ofNat hv]
    omega
  · rw [if_neg hr]
    exact h

theorem deUmlaut_of_alnum {c : Char} (h : isAlnumA c = true) : deUmlaut c = [c] := by
  unfold deUmlaut
  rw [if_neg (fun hc => by subst hc; exact absurd h (by decide)),
    if_neg (fun hc => by subst hc; exact absurd h (by decide)),
    if_neg (fun hc => by subst hc; exact absurd h (by decide)),
    if_neg (fun hc => by subst hc; exact absurd h (by decide))]

theorem not_space_of_alnum {c : Char} (h : isAlnumA c = true) : ¬ (c = ' ') :=
  fun hc => by subst hc; exact absurd h (by decide)

theorem flatten_deUmlaut_of_alnum {l : List Char} (h : ∀ c ∈ l, isAlnumA c = true) :
    (l.map deUmlaut).flatten = l := by
  induction l with
  | nil => rfl
  | cons a cs ih =>
    simp only [List.map_cons, List.flatten_cons]
    rw [deUmlaut_of_alnum (h a (by simp)), ih (fun c hc => h c (List.mem_cons_of_mem _ hc))]
    rfl

theorem clean_of_alnum {l : List Char} (h : ∀ c ∈ l, isAlnumA c = true) :
    l.map (fun c => if isAlnumA c then c else ' ') = l := by
  induction l with
  | nil => rfl
  | cons a cs ih =>
    simp only [List.map_cons]
    rw [if_pos (h a (by simp)), ih (fun c hc => h c (List.mem_cons_of_mem _ hc))]

theorem toWords_single : ∀ (l : List Char), (∀ c ∈ l, ¬ (c = ' ')) → l ≠ [] →
    toWords l = [l] := by
  intro l
  induction l with
  | nil => intro _ h; exact absurd rfl h
  | cons a cs ih =>
    intro h _
    cases cs with
    | nil =>
      simp only [toWords]
      rw [if_neg (h a (by simp))]
    | cons d cs2 =>
      have hrec : toWords (d :: cs2) = [d :: cs2] :=
        ih (fun c hc => h c (List.mem_cons_of_mem _ hc)) (by simp)
      rw [show toWords (a :: d :: cs2) = (if a = ' ' then toWords (d :: cs2)
          else match toWords (d :: cs2) with
            | [] => [[a]]
            | w :: ws => if (d :: cs2).headD ' ' = ' ' then [a] :: w :: ws
              else (a :: w) :: ws) from rfl]
      rw [if_neg (h a (by simp)), hrec]
      show (if (d :: cs2).headD ' ' = ' ' then [a] :: (d :: cs2) :: ([] : List (List Char))
        else (a :: d :: cs2) :: []) = [a :: d :: cs2]
      rw [if_neg (show ¬ ((d :: cs2).headD ' ' = ' ') from by
        simpa using h d (by simp))]

theorem toWords_chars : ∀ (l : List Char) (w : List Char) (c : Char),
    w ∈ toWords l → c ∈ w → c ∈ l ∧ ¬ (c = ' ') := by
  intro l
  induction l with
  | nil => intro w c hw _; simp [toWords] at hw
  | cons a cs ih =>
    intro w c hw hc
    by_cases ha : a = ' '
    · rw [show toWords (a :: cs) = toWords cs from by
        rw [show toWords (a :: cs) = (if a = ' ' then toWords cs
            else match toWords cs with
              | [] => [[a]]
              | w :: ws => if cs.headD ' ' = ' ' then [a] :: w :: ws
                else (a :: w) :: ws) from rfl]
        rw [if_pos ha]] at hw
      have := ih w c hw hc
      exact ⟨List.mem_cons_of_mem _ this.1, this.2⟩
    · rcases hcs : toWords cs with - | ⟨w0, ws0⟩
      · have hstep : toWords (a :: cs) = [[a]] := by
          rw [show toWords (a :: cs) = (if a = ' ' then toWords cs
              else match toWords cs with
                | [] => [[a]]
                | w :: ws => if cs.headD ' ' = ' ' then [a] :: w :: ws
                  else (a :: w) :: ws) from rfl]
          rw [if_neg ha, hcs]
        rw [hstep] at hw
        rw [List.mem_singleton] at hw
        subst hw
        rw [List.mem_singleton] at hc
        subst hc
        exact ⟨by simp, ha⟩
      · have hstep : toWords (a :: cs) = (if cs.headD ' ' = ' ' then [a] :: w0 :: ws0
            else (a :: w0) :: ws0) := by
          rw [show toWords (a :: cs) = (if a = ' ' then toWords cs
              else match toWords cs with
                | [] => [[a]]
                | w :: ws => if cs.headD ' ' = ' ' then [a] :: w :: ws
                  else (a :: w) :: ws) from rfl]
          rw [if_neg ha, hcs]
        by_cases hh : cs.headD ' ' = ' '
        · rw [hstep, if_pos hh] at hw
          rcases List.mem_cons.mp hw with rfl | hw2
          · rw [List.mem_singleton] at hc
            subst hc
            exact ⟨by simp, ha⟩
          · have := ih w c (by rw [hcs]; exact hw2) hc
            exact ⟨List.mem_cons_of_mem _ this.1, this.2⟩
        · rw [hstep, if_neg hh] at hw
          rcases List.mem_cons.mp hw with rfl | hw2
          · rcases List.mem_cons.mp hc with rfl | hc2
            · exact ⟨by simp, ha⟩
            · have := ih w0 c (by rw [hcs]; simp) hc2
              exact ⟨List.mem_cons_of_mem _ this.1, this.2⟩
          · have := ih w c (by rw [hcs]; exact List.mem_cons_of_mem _ hw2) hc
            exact ⟨List.mem_cons_of_mem _ this.1, this.2⟩

theorem capWord_alnum {w : List Char} (h : ∀ c ∈ w, isAlnumA c = true) :
    ∀ c ∈ capWord w, isAlnumA c = true := by
  cases w with
  | nil => intro c hc; simp [capWord] at hc
  | cons a cs =>
    intro c hc
    rcases List.mem_cons.mp hc with rfl | hc2
    · exact isAlnumA_toUpper (h a (by simp))
    · rcases List.mem_map.mp hc2 with ⟨b, hb, rfl⟩
      exact isAlnumA_toLower (h b (List.mem_cons_of_mem _ hb))

theorem pascalChars_all_alnum (l : List Char) : ∀ c ∈ pascalChars l, isAlnumA c = true := by
  intro c hc
  unfold pascalChars at hc
  rcases List.mem_flatten.mp hc with ⟨w', hw', hcw⟩
  rcases List.mem_map.mp hw' with ⟨w, hw, rfl⟩
  have hwalnum : ∀ d ∈ w, isAlnumA d = true := by
    intro d hd
    obtain ⟨hdc, hds⟩ := toWords_chars _ w d hw hd
    rcases List.mem_map.mp hdc with ⟨b, hb, hbd⟩
    by_cases hba : isAlnumA b
    · rw [if_pos hba] at hbd
      rwa [← hbd]
    · rw [if_neg hba] at hbd
      exact absurd hbd.symm hds
  exact capWord_alnum hwalnum c hcw

theorem pascalChars_of_alnum {l : List Char} (h : ∀ c ∈ l, isAlnumA c = true) :
    pascalChars l = capWord l := by
  show ((toWords (((l.map deUmlaut).flatten).map
    (fun c => if isAlnumA c then c else ' '))).map capWord).flatten = capWord l
  rw [flatten_deUmlaut_of_alnum h, clean_of_alnum h]
  cases hl : l with
  | nil => rfl
  | cons a cs =>
    rw [← hl, toWords_single l (fun c hc => not_space_of_alnum (h c hc)) (by rw [hl]; simp)]
    simp

theorem to_pascal_twice (s : String) :
    to_pascal_case (to_pascal_case s) = pyCapitalize (to_pascal_case s) := by
  show String.mk (pascalChars (pascalChars s.data)) = String.mk (capWord (pascalChars s.data))
  rw [pascalChars_of_alnum (pascalChars_all_alnum s.data)]

/-- C4 counterexample: `_to_pascal_case` is not idempotent.  A second
application runs the result through Python `capitalize()`, which lower-cases
every character after the first: the single word `WorkoutLogs` becomes
`Workoutlogs`. -/
theorem C4_pascal_idempotent_cx :
    to_pascal_case "workout_logs" = "WorkoutLogs" ∧
    to_pascal_case (to_pascal_case "workout_logs") = "Workoutlogs" ∧
    ("Workoutlogs" : String) ≠ "WorkoutLogs" := by
  decide

/-- C4 amended: the two concrete mappings of the claim hold
(`workout_logs → WorkoutLogs`, `müsli-bestand → MuesliBestand`), but the
transform is not idempotent: for every input string, applying it twice
equals Python `capitalize()` of a single application (first character
upper-cased, all others lower-cased), which differs from the single
application whenever the result has an interior capital. -/
theorem C4_pascal_amended :
    to_pascal_case "workout_logs" = "WorkoutLogs" ∧
    to_pascal_case "müsli-bestand" = "MuesliBestand" ∧
    ∀ s : String, to_pascal_case (to_pascal_case s) = pyCapitalize (to_pascal_case s) :=
  ⟨by decide, by decide, to_pascal_twice⟩
